import Mathlib

/-!
Shallow embedding of the numerical core of `StimulusClampProtocol.cpp`
(KineticModelBuilder): epoch discretisation, epoch interning, range-index
lookup, reference resampling, equilibrium probability, spectral and
Monte-Carlo simulation, event-chain sampling, summary normalisation and the
fitting cost.  Real-valued quantities are modelled over ℚ (exact
arithmetic).  Dense Eigen vectors are modelled as functions `ℕ → ℚ`
together with an explicit length where the length matters.  Non-finite
results of a floating-point division by zero are modelled with `Option`.
-/

namespace StimulusClampProtocol

/-- One epoch of constant stimuli discretised to sample points (the
`Epoch` record as used by `Simulation::findEpochsDiscretizedToSamplePoints`):
absolute start time, duration, first sample index, number of samples, and
the snapshot of all stimulus channel values over the epoch. -/
structure Epoch where
  start : ℚ
  duration : ℚ
  firstPt : ℕ
  numPts : ℕ
  stimuli : List (String × ℚ)
deriving DecidableEq

/-- The per-sample snapshot of all stimulus channels: for each channel
`(name, values)` of the simulation, the pair `(name, values i)`.  This is
the map built by `for(auto &kv : stimuli) epoch.stimuli[kv.first] = kv.second[i]`;
since the channels are iterated in a fixed (sorted-map) order, equality of
snapshots as lists coincides with key-for-key, value-for-value equality of
the C++ `std::map`s. -/
def stimuliSnapshot (stimuli : List (String × (ℕ → ℚ))) (i : ℕ) : List (String × ℚ) :=
  stimuli.map (fun kv => (kv.1, kv.2 i))

/-- The still-open trailing epoch during the scan (its `duration` and
`numPts` fields are only written when the epoch is closed). -/
structure OpenEpoch where
  start : ℚ
  firstPt : ℕ
  stimuli : List (String × ℚ)
deriving DecidableEq

/-- The scan loop of `Simulation::findEpochsDiscretizedToSamplePoints`
over samples `i, i+1, …` (`count` samples remain): whenever any stimulus
channel value at `i` differs from the one at `i-1`, the open epoch is
closed with `duration = time[i] - start` and `numPts = i - firstPt`, and a
new epoch is opened at sample `i`. -/
def epochWalk (time : ℕ → ℚ) (stimuli : List (String × (ℕ → ℚ))) :
    ℕ → ℕ → List Epoch → OpenEpoch → List Epoch × OpenEpoch
  | _, 0, closed, cur => (closed, cur)
  | i, count + 1, closed, cur =>
    if stimuliSnapshot stimuli i ≠ stimuliSnapshot stimuli (i - 1) then
      epochWalk time stimuli (i + 1) count
        (closed ++ [⟨cur.start, time i - cur.start, cur.firstPt, i - cur.firstPt, cur.stimuli⟩])
        ⟨time i, i, stimuliSnapshot stimuli i⟩
    else
      epochWalk time stimuli (i + 1) count closed cur

/-- `Simulation::findEpochsDiscretizedToSamplePoints`: start with an epoch
at sample 0, scan samples `1 … N-1`, then close the last epoch with
`duration = endTime - start` and `numPts = N - firstPt`. -/
def findEpochsDiscretizedToSamplePoints (time : ℕ → ℚ) (N : ℕ) (endTime : ℚ)
    (stimuli : List (String × (ℕ → ℚ))) : List Epoch :=
  let r := epochWalk time stimuli 1 (N - 1) [] ⟨time 0, 0, stimuliSnapshot stimuli 0⟩
  r.1 ++ [⟨r.2.start, endTime - r.2.start, r.2.firstPt, N - r.2.firstPt, r.2.stimuli⟩]

/-- Interning of one epoch's stimuli map into the shared `uniqueEpochs`
pool (`StimulusClampProtocol::init`, the unique-epochs loop): linear
search for the first pool entry whose stimuli map equals the epoch's; if
found the epoch points at it, otherwise a fresh entry holding a copy of
the stimuli is appended.  A `uniqueEpoch` pointer is modelled as the index
of its entry in the pool (distinct entries are distinct allocations). -/
def internEpoch (pool : List (List (String × ℚ))) (s : List (String × ℚ)) :
    List (List (String × ℚ)) × ℕ :=
  match pool with
  | [] => ([s], 0)
  | t :: rest =>
    if t = s then (t :: rest, 0)
    else
      let r := internEpoch rest s
      (t :: r.1, r.2 + 1)

/-- Interning of a sequence of epoch stimuli maps (all epochs of all
simulations of all protocols, in order) into the shared pool, returning
the final pool and the pointer (pool index) assigned to each epoch. -/
def internEpochs (pool : List (List (String × ℚ))) :
    List (List (String × ℚ)) → List (List (String × ℚ)) × List ℕ
  | [] => (pool, [])
  | s :: rest =>
    let r := internEpoch pool s
    let r2 := internEpochs r.1 rest
    (r2.1, r.2 :: r2.2)

/-- `pool₂` agrees with `pool₁` on every position `pool₁` populates
(the pool only ever grows by appending, so assigned pointers stay valid). -/
def PoolExtends (pool₁ pool₂ : List (List (String × ℚ))) : Prop :=
  ∀ (i : ℕ) (x : List (String × ℚ)), pool₁[i]? = some x → pool₂[i]? = some x

/-- Eigen's `(v.array() - x).abs().minCoeff(&index)`: visit coefficients in
index order, keeping the running minimum and updating the index only on a
strict improvement, so the returned index is the first index attaining the
minimum of `|v[i] - x|`.  `count` coefficients starting at `i` remain;
`best` holds the current argmin and `bestVal` its value. -/
def argminAbsAux (f : ℕ → ℚ) (target : ℚ) : ℕ → ℕ → ℕ → ℚ → ℕ
  | 0, _, best, _ => best
  | count + 1, i, best, bestVal =>
    if |f i - target| < bestVal then argminAbsAux f target count (i + 1) i (|f i - target|)
    else argminAbsAux f target count (i + 1) best bestVal

/-- First index of the coefficient of `f` (over indices `0 … N-1`, `N ≥ 1`)
closest to `target`. -/
def argminAbs (f : ℕ → ℚ) (N : ℕ) (target : ℚ) : ℕ :=
  argminAbsAux f target (N - 1) 1 0 (|f 0 - target|)

/-- `findIndexesInRange(time, start, stop, &firstPt, &numPts, epsilon)`:
`firstPt` is the index of the sample closest to `start`, advanced by one
when `time[firstPt] < start - epsilon`; if `firstPt < N`, `endPt` is the
analogous index for `stop` and `numPts = endPt - firstPt` (no clamping),
else `numPts = 0`.  The `epsilon == 0 → 5·machine-epsilon` default is a
floating-point constant and is modelled by passing `epsilon` explicitly. -/
def findIndexesInRange (time : ℕ → ℚ) (N : ℕ) (start stop ε : ℚ) : ℤ × ℤ :=
  let c1 := argminAbs time N start
  let f : ℤ := if time c1 < start - ε then (c1 : ℤ) + 1 else (c1 : ℤ)
  if f < (N : ℤ) then
    let c2 := argminAbs time N stop
    let e : ℤ := if time c2 < stop - ε then (c2 : ℤ) + 1 else (c2 : ℤ)
    (f, e - f)
  else (f, 0)

/-- The `while` loop of `sampleArray`, mapping reference data `yref(xref - x0)`
onto the sample grid `x`.  The state is `(i, iref, y, firstPt)`; `di`/`diref`
are `±1` depending on the direction of the (monotonic) arrays.  The C++
`while(i >= 0 && i < n && iref >= 0 && iref < nref)` loop always terminates
because every iteration advances `i` or `iref` one step toward an exit; the
structural `fuel` argument only makes that termination explicit — once the
bounds check fails the state is returned unchanged for any remaining fuel. -/
def sampleLoop (xref yref : ℤ → ℚ) (nref : ℤ) (x : ℤ → ℚ) (n : ℤ) (x0 ε : ℚ)
    (di diref : ℤ) : ℕ → ℤ × ℤ × (ℤ → ℚ) × ℤ → ℤ × ℤ × (ℤ → ℚ) × ℤ
  | 0, st => st
  | fuel + 1, (i, iref, y, firstPt) =>
    if 0 ≤ i ∧ i < n ∧ 0 ≤ iref ∧ iref < nref then
      if x i < xref iref - x0 - ε then
        sampleLoop xref yref nref x n x0 ε di diref fuel (i + di, iref, y, firstPt)
      else if |x i - (xref iref - x0)| < ε then
        sampleLoop xref yref nref x n x0 ε di diref fuel
          (i + di, iref + diref,
            fun k => if k = i then yref iref else y k,
            if firstPt = -1 then i else firstPt)
      else
        let jref := iref + diref
        if 0 ≤ jref ∧ jref < nref ∧ xref jref - x0 > x i then
          sampleLoop xref yref nref x n x0 ε di diref fuel
            (i + di, jref,
              fun k => if k = i then
                  yref iref
                    + ((yref jref - yref iref) / (xref jref - xref iref))
                      * (x i - (xref iref - x0))
                else y k,
              if firstPt = -1 then i else firstPt)
        else
          sampleLoop xref yref nref x n x0 ε di diref fuel (i, jref, y, firstPt)
    else (i, iref, y, firstPt)

/-- `sampleArray(xref, yref, nref, x, y, n, &firstPt, &numPts, x0, epsilon)`:
direction flags from the sign of the first step of each array, loop from the
leading ends, then derive `firstPt`/`numPts` (with the direction adjustment
for a decreasing sample array).  `y0` is the caller's `y` buffer (zeroed at
the call sites); the result is `(y, firstPt, numPts)`. -/
def sampleArray (xref yref : ℤ → ℚ) (nref : ℤ) (x y0 : ℤ → ℚ) (n : ℤ) (x0 ε : ℚ) :
    (ℤ → ℚ) × ℤ × ℤ :=
  let di : ℤ := if 2 ≤ n ∧ x 1 - x 0 < 0 then -1 else 1
  let i0 : ℤ := if 2 ≤ n ∧ x 1 - x 0 < 0 then n - 1 else 0
  let diref : ℤ := if 2 ≤ nref ∧ xref 1 - xref 0 < 0 then -1 else 1
  let iref0 : ℤ := if 2 ≤ nref ∧ xref 1 - xref 0 < 0 then nref - 1 else 0
  let st := sampleLoop xref yref nref x n x0 ε di diref (n.toNat + nref.toNat + 1)
    (i0, iref0, y0, -1)
  if st.2.2.2 = -1 then (st.2.2.1, -1, 0)
  else if 2 ≤ n ∧ x 1 - x 0 < 0 then (st.2.2.1, st.1 + 1, st.2.2.2 - st.1)
  else (st.2.2.1, st.2.2.2, st.1 - st.2.2.2)

/-- `SimulationsSummary` normalisation modes. -/
inductive SummaryNormalization
  | NoNorm
  | PerRow
  | AllRows
deriving DecidableEq

/-- Eigen's `row.array().abs().maxCoeff()` on a (nonempty) row: the maximum
of the absolute values of its entries (all of which are `≥ 0`, so the `0`
fold seed does not change the value on nonempty rows). -/
def maxAbsCoeff (row : List ℚ) : ℚ :=
  (row.map (fun a => |a|)).foldr max 0

/-- `dataY.array().abs().maxCoeff()` over the whole matrix. -/
def maxAbsMatrix (dataY : List (List ℚ)) : ℚ :=
  (dataY.map maxAbsCoeff).foldr max 0

/-- A double division whose divisor may be zero: a zero divisor yields an
IEEE non-finite value (NaN or ±inf), modelled as `none`. -/
def ieeeDiv (a d : ℚ) : Option ℚ :=
  if d = 0 then none else some (a / d)

/-- One step of the `PerRow` branch of the summary-normalisation loop in
`StimulusClampProtocolSimulator::runSimulation`:
`dataY.row(row) /= dataY.row(row).array().abs().maxCoeff()` — with no guard
on the divisor. -/
def normalizeRow (row : List ℚ) : List (Option ℚ) :=
  row.map (fun a => ieeeDiv a (maxAbsCoeff row))

/-- The summary-normalisation block of
`StimulusClampProtocolSimulator::runSimulation`: `PerRow` divides each row
by that row's `max |·|`, `AllRows` divides the whole matrix by the global
`max |·|`, `NoNorm` leaves the data; no branch guards against a zero
divisor. -/
def applySummaryNormalization : SummaryNormalization → List (List ℚ) → List (List (Option ℚ))
  | SummaryNormalization.NoNorm, dataY => dataY.map (fun row => row.map some)
  | SummaryNormalization.PerRow, dataY => dataY.map normalizeRow
  | SummaryNormalization.AllRows, dataY =>
    dataY.map (fun row => row.map (fun a => ieeeDiv a (maxAbsMatrix dataY)))

/-- A dense `Eigen::MatrixXd` with its dimensions, entries as a total
function (reads outside the recorded shape are never used). -/
structure PMat where
  rows : ℕ
  cols : ℕ
  entry : ℕ → ℕ → ℚ

/-- One epoch together with the spectral data of its `uniqueEpoch`
(`spectralEigenValues[i]` and `spectralMatrices[i]`, the latter indexed
matrix-row-first). -/
structure SpectralEpoch where
  start : ℚ
  duration : ℚ
  firstPt : ℕ
  numPts : ℕ
  spectralEigenValues : ℕ → ℚ
  spectralMatrices : ℕ → ℕ → ℕ → ℚ

/-- Row vector times matrix over `S` states: `(p · A) c = Σ_i p i * A i c`. -/
def vecMulMat (p : ℕ → ℚ) (A : ℕ → ℕ → ℚ) (S : ℕ) : ℕ → ℚ :=
  fun c => ∑ i ∈ Finset.range S, p i * A i c

/-- The epoch loop of `Simulation::spectralSimulation` (per epoch, with the
running `epochCounter` and current `startingProbability` row `p`): the
first epoch under `startEquilibrated` projects `p` onto the stationary
eigenspace (`p · A₀`) and fills its sample block with that constant row;
otherwise the block accumulates
`Σ_i exp((t - start)·λ_i) · (p · A_i)` over its rows, and — unless this is
the last epoch — `p` is propagated by `Σ_i (p · A_i) · exp(λ_i · duration)`.
`rexp` abstracts the C++ `std::exp` (its values are irrelevant to the
claims proved here, which hold for exact arithmetic with any `exp`). -/
def spectralLoop (time : ℕ → ℚ) (S : ℕ) (rexp : ℚ → ℚ) (startEquilibrated : Bool) :
    List SpectralEpoch → ℕ → (ℕ → ℕ → ℚ) → (ℕ → ℚ) → (ℕ → ℕ → ℚ)
  | [], _, P, _ => P
  | e :: rest, counter, P, p =>
    if counter = 0 ∧ startEquilibrated = true then
      let p2 := vecMulMat p (e.spectralMatrices 0) S
      let P2 := fun r c =>
        if e.firstPt ≤ r ∧ r < e.firstPt + e.numPts ∧ c < S then p2 c else P r c
      spectralLoop time S rexp startEquilibrated rest (counter + 1) P2 p2
    else
      let P2 := fun r c =>
        if e.firstPt ≤ r ∧ r < e.firstPt + e.numPts ∧ c < S then
          P r c + ∑ i ∈ Finset.range S,
            rexp ((time r - e.start) * e.spectralEigenValues i)
              * vecMulMat p (e.spectralMatrices i) S c
        else P r c
      let p2 := if rest.isEmpty then p
        else fun c => ∑ i ∈ Finset.range S,
          vecMulMat p (e.spectralMatrices i) S c
            * rexp (e.spectralEigenValues i * e.duration)
      spectralLoop time S rexp startEquilibrated rest (counter + 1) P2 p2

/-- A `Simulation` restricted to the fields `spectralSimulation` touches. -/
structure SpectralSim where
  N : ℕ
  time : ℕ → ℚ
  epochs : List SpectralEpoch
  probability : List PMat

/-- The `while(probability.size() <= variableSetIndex)
probability.push_back(Zero(numPts, numStates))` loop: append zero
`N × S` matrices until the list has at least `idx + 1` entries (closed
form of the while loop). -/
def padProbability (prob : List PMat) (idx N S : ℕ) : List PMat :=
  prob ++ List.replicate (idx + 1 - prob.length) ⟨N, S, fun _ _ => 0⟩

/-- `Simulation::spectralSimulation(startingProbability, startEquilibrated,
variableSetIndex, …)`: pad the `probability` vector up to
`variableSetIndex`, then zero the matrix at `variableSetIndex`
(`P.setZero(numPts, numStates)`) and recompute it with the epoch loop from
a zero matrix — results are replaced, never accumulated across calls. -/
def spectralSimulation (sim : SpectralSim) (startingProbability : ℕ → ℚ) (S : ℕ)
    (startEquilibrated : Bool) (variableSetIndex : ℕ) (rexp : ℚ → ℚ) : SpectralSim :=
  let prob1 := padProbability sim.probability variableSetIndex sim.N S
  let Pnew : PMat := ⟨sim.N, S,
    spectralLoop sim.time S rexp startEquilibrated sim.epochs 0 (fun _ _ => 0)
      startingProbability⟩
  { sim with probability := prob1.set variableSetIndex Pnew }

/-- A Monte-Carlo dwell event: `(state, duration)`. -/
structure MCEvent where
  state : ℕ
  duration : ℚ
deriving DecidableEq

/-- One epoch as seen by `Simulation::monteCarloSimulation`: its absolute
start, duration and its `uniqueEpoch`'s transition-rate matrix `Q`
(`Q s j` is the rate from state `s` to state `j`; `kout = -Q s s`). -/
structure MCEpoch where
  start : ℚ
  duration : ℚ
  Q : ℕ → ℕ → ℚ

/-- The starting-state inverse-CDF loop of `monteCarloSimulation`: walk the
states accumulating `startingProbability`; pick the first state whose
cumulative sum exceeds the uniform draw `u`; if rounding leaves none
(`event.state == -1` after the loop), force state `S - 1`. -/
def pickStartStateAux (p : ℕ → ℚ) (S : ℕ) (u : ℚ) : ℕ → ℕ → ℚ → ℕ
  | 0, _, _ => S - 1
  | count + 1, i, ptot =>
    let pt := ptot + p i
    if pt > u then i else pickStartStateAux p S u count (i + 1) pt

/-- Starting state from `startingProbability` and a uniform draw `u`. -/
def pickStartState (p : ℕ → ℚ) (S : ℕ) (u : ℚ) : ℕ :=
  pickStartStateAux p S u S 0 0

/-- The next-state selection of `monteCarloSimulation`: iterate the stored
off-diagonal entries of column `s` of `Qᵀ` (that is, the nonzero entries
`Q s j` of row `s` of `Q`, in increasing `j`; a structurally-zero sparse
entry is modelled as a zero value), accumulate `Q s j / kout`, and pick the
first `j` whose cumulative weight reaches the uniform draw `u`; if the
iteration falls through, `event.state` is left unchanged at `s`. -/
def selectNextStateAux (Q : ℕ → ℕ → ℚ) (s : ℕ) (kout u : ℚ) : ℕ → ℕ → ℚ → ℕ
  | 0, _, _ => s
  | count + 1, j, ptot =>
    if j ≠ s ∧ Q s j ≠ 0 then
      let pt := ptot + Q s j / kout
      if pt ≥ u then j else selectNextStateAux Q s kout u count (j + 1) pt
    else selectNextStateAux Q s kout u count (j + 1) ptot

/-- Next state after `s` given the current epoch's `Q`, `kout` and draw `u`. -/
def selectNextState (Q : ℕ → ℕ → ℚ) (S : ℕ) (s : ℕ) (kout u : ℚ) : ℕ :=
  selectNextStateAux Q s kout u S 0 0

/-- The inner `while(eventChainDuration + lifetime > epoch.start + epoch.duration)`
loop of `monteCarloSimulation`: truncate the lifetime to the end of the
current epoch and advance to the next epoch, adding a freshly drawn
lifetime there (`endTime` when the state is absorbing, `kout < ε`); if the
epochs run out, the chain ends with a final event of duration
`endTime - eventChainDuration`.  `ω` is the stream of draws from the
simulation's `mt19937` in program order and `k` the index of the next
draw; an absorbing state consumes no draw. -/
def mcTruncate (endTime ε : ℚ) (ω : ℕ → ℚ) (s : ℕ) (t : ℚ) :
    ℚ → MCEpoch → List MCEpoch → ℕ → ((ℚ ⊕ (ℚ × MCEpoch × List MCEpoch)) × ℕ)
  | lifetime, cur, [], k =>
    if t + lifetime > cur.start + cur.duration then (Sum.inl (endTime - t), k)
    else (Sum.inr (lifetime, cur, []), k)
  | lifetime, cur, next :: rest2, k =>
    if t + lifetime > cur.start + cur.duration then
      let l2 := cur.start + cur.duration - t
      let kout := -(next.Q s s)
      let d := if kout < ε then endTime else ω k
      let k2 := if kout < ε then k else k + 1
      mcTruncate endTime ε ω s t (l2 + d) next rest2 k2
    else (Sum.inr (lifetime, cur, next :: rest2), k)

/-- The outer `while(eventChainDuration < endTime)` loop of
`monteCarloSimulation`, generating one event chain.  The state is the
elapsed chain duration `t`, the current state `s`, the current epoch and
the remaining epochs, and the draw index `k`.  `fuel` makes the loop
structurally recursive; `none` means the fuel ran out before the loop ended
(the C++ loop need not terminate for adversarial draw sequences), so every
chain the code produces is a `some` result for sufficiently large fuel. -/
def mcChainAux (endTime ε : ℚ) (ω : ℕ → ℚ) (S : ℕ) :
    ℕ → ℚ → ℕ → MCEpoch → List MCEpoch → ℕ → Option (List MCEvent)
  | 0, _, _, _, _, _ => none
  | fuel + 1, t, s, cur, rest, k =>
    if t < endTime then
      let kout := -(cur.Q s s)
      let l0 := if kout < ε then endTime else ω k
      let k1 := if kout < ε then k else k + 1
      match mcTruncate endTime ε ω s t l0 cur rest k1 with
      | (Sum.inl dfin, _) => some [⟨s, dfin⟩]
      | (Sum.inr (lifetime, cur2, rest2), k2) =>
        let t2 := t + lifetime
        if t2 < endTime then
          let s2 := selectNextState cur2.Q S s (-(cur2.Q s s)) (ω k2)
          match mcChainAux endTime ε ω S fuel t2 s2 cur2 rest2 (k2 + 1) with
          | none => none
          | some c => some (⟨s, lifetime⟩ :: c)
        else some [⟨s, lifetime⟩]
    else some []

/-- One run of `Simulation::monteCarloSimulation` (chain generation): pick
the starting state by inverse CDF over `startingProbability` (the
`startEquilibrated` replacement of `startingProbability` by the stationary
distribution is the `equilibriumProbability` function treated separately),
then generate events until `endTime` is reached.  The C++ dereferences
`epochs.begin()`, so a simulation always has at least one epoch; an empty
epoch list yields `none` here. -/
def monteCarloChain (endTime ε : ℚ) (ω : ℕ → ℚ) (S : ℕ) (p0 : ℕ → ℚ)
    (epochs : List MCEpoch) (fuel : ℕ) : Option (List MCEvent) :=
  match epochs with
  | [] => none
  | e :: rest =>
    let s0 := pickStartState p0 S (ω 0)
    mcChainAux endTime ε ω S fuel 0 s0 e rest 1

/-- The epoch list is consecutive (each epoch starts where the previous one
ends) and its last epoch ends exactly at `endTime` — the shape
`findEpochsDiscretizedToSamplePoints` produces. -/
def ConsecutiveTo (endTime : ℚ) : List MCEpoch → Prop
  | [] => True
  | [e] => e.start + e.duration = endTime
  | e :: e2 :: rest => e2.start = e.start + e.duration ∧ ConsecutiveTo endTime (e2 :: rest)

/-- `P(t, state) += v` on a probability matrix held as a function. -/
def addTo (P : ℕ → ℕ → ℚ) (t s : ℕ) (v : ℚ) : ℕ → ℕ → ℚ :=
  fun r c => if r = t ∧ c = s then P r c + v else P r c

/-- The end of sample interval `t`: `t + 1 < numPts ? time[t + 1] : endTime`
(used both to initialise and to update `sampleIntervalEnd` in
`getProbabilityFromEventChains`). -/
def sampleIntervalEnd (time : ℕ → ℚ) (N : ℕ) (endTime : ℚ) (t : ℕ) : ℚ :=
  if t + 1 < N then time (t + 1) else endTime

/-- The `while(t < numPts && eventIter != eventChain.end())` loop of
`Simulation::getProbabilityFromEventChains` for one chain: the sample
interval is `[time[t], sampleIntervalEnd t)` and the current event covers
`[es, es + duration)`; an event covering the whole interval adds 1, an
event stopping (resp. starting, resp. both) mid-interval adds the matching
fraction of the sample interval and advances the event (resp. the sample,
resp. the event). -/
def sampleChainAux (time : ℕ → ℚ) (N : ℕ) (endTime : ℚ) :
    (ℕ → ℕ → ℚ) → ℕ → ℚ → List MCEvent → (ℕ → ℕ → ℚ)
  | P, _, _, [] => P
  | P, t, es, ev :: rest =>
    if t < N then
      let ss := time t
      let se := sampleIntervalEnd time N endTime t
      let si := se - ss
      let ee := es + ev.duration
      if es ≤ ss ∧ ee ≥ se then
        sampleChainAux time N endTime (addTo P t ev.state 1) (t + 1) es (ev :: rest)
      else if es ≤ ss then
        sampleChainAux time N endTime (addTo P t ev.state ((ee - ss) / si)) t ee rest
      else if ee ≥ se then
        sampleChainAux time N endTime (addTo P t ev.state ((se - es) / si)) (t + 1) es
          (ev :: rest)
      else
        sampleChainAux time N endTime (addTo P t ev.state (ev.duration / si)) t ee rest
    else P
termination_by _ t _ evs => evs.length + (N - t)
decreasing_by
  all_goals simp
  all_goals omega

/-- `Simulation::getProbabilityFromEventChains`: zero `P`, accumulate every
chain with the sampling loop, then divide by the number of chains. -/
def getProbabilityFromEventChains (time : ℕ → ℚ) (N : ℕ) (endTime : ℚ)
    (chains : List (List MCEvent)) : ℕ → ℕ → ℚ :=
  let Psum := chains.foldl (fun P c => sampleChainAux time N endTime P 0 0 c)
    (fun _ _ => 0)
  fun r c => Psum r c / (chains.length : ℚ)

/-- The total fraction the sampling loop still adds to row `t` when the
current event starts at `es`: the not-yet-covered part of the sample
interval, `(se - max(es, ss)) / (se - ss)` (and 1 for the degenerate
zero-width last interval, which is always covered whole). -/
def rowAmt (time : ℕ → ℚ) (N : ℕ) (endTime : ℚ) (t : ℕ) (es : ℚ) : ℚ :=
  if time t < sampleIntervalEnd time N endTime t then
    (sampleIntervalEnd time N endTime t - max es (time t))
      / (sampleIntervalEnd time N endTime t - time t)
  else 1

/-- Sum of row `r` of `P` over the `S` state columns. -/
def rowSum (S : ℕ) (P : ℕ → ℕ → ℚ) (r : ℕ) : ℚ :=
  ∑ c ∈ Finset.range S, P r c

/-- The `N × (N+1)` matrix `S` built by `equilibriumProbability`:
`S = Ones(N, N+1); S.block(0, 0, N, N) = Q` — a copy of `Q` with one
additional column of ones. -/
def augOnes (n : ℕ) (Q : Matrix (Fin n) (Fin n) ℚ) : Matrix (Fin n) (Fin (n + 1)) ℚ :=
  Matrix.of fun i j => if h : (j : ℕ) < n then Q i ⟨j, h⟩ else 1

/-- `Eigen`'s dense inverse as used on the (hypothesis: invertible) matrix
`S·Sᵀ`: the classical adjugate formula `det⁻¹ • adjugate` (equal to
Mathlib's `Matrix.inv`). -/
def matInv {n : ℕ} (A : Matrix (Fin n) (Fin n) ℚ) : Matrix (Fin n) (Fin n) ℚ :=
  A.det⁻¹ • A.adjugate

/-- `equilibriumProbability(Q)`: form `S = [Q | 1]`, return the row vector
`u · (S·Sᵀ)⁻¹` where `u` is a row of ones. -/
def equilibriumProbability {n : ℕ} (Q : Matrix (Fin n) (Fin n) ℚ) : Fin n → ℚ :=
  Matrix.vecMul (fun _ => 1) (matInv (augOnes n Q * (augOnes n Q).transpose))

/-- The vector `(1, …, 1, 0)` of length `n + 1`; it spans the kernel of the
augmented matrix `S = [Q | 1]` when `Q` has zero row sums and `S·Sᵀ` is
invertible (proof auxiliary for the stationarity theorem). -/
def kerOnes (n : ℕ) : Fin (n + 1) → ℚ := fun j => if (j : ℕ) < n then 1 else 0

/-- `Simulation::RefData`: a reference curve over samples
`[firstPt, firstPt + numPts)` with a global weight. -/
structure RefData where
  firstPt : ℕ
  numPts : ℤ
  waveform : ℕ → ℚ
  weight : ℚ

/-- The per-simulation data read by `StimulusClampProtocol::cost` and
`getSimulationWaveform`. -/
structure Sim where
  time : List ℚ
  weight : ℕ → ℚ
  probability : List PMat
  stimuli : List (String × (ℕ → ℚ))
  waveforms : List (List (String × (ℕ → ℚ)))
  referenceData : List (List (String × RefData))

/-- Linear search of a `std::map`-style association list. -/
def lookupStr {α : Type} : List (String × α) → String → Option α
  | [], _ => none
  | (key, a) :: rest, name => if key = name then some a else lookupStr rest name

/-- `StimulusClampProtocol::getSimulationWaveform`: resolve `name` as a state
column of `probability[v]`, else a stimulus, else a `waveforms[v]` entry;
return the curve together with `n = time.size()` when found. -/
def getSimulationWaveform (stateNames : List String) (name : String) (sim : Sim)
    (v : ℕ) : Option ((ℕ → ℚ) × ℕ) :=
  match stateNames.findIdx? (fun s => s == name) with
  | some stateIndex =>
    match sim.probability[v]? with
    | some P => some (fun t => P.entry t stateIndex, sim.time.length)
    | none => none
  | none =>
    match lookupStr sim.stimuli name with
    | some w => some (w, sim.time.length)
    | none =>
      match sim.waveforms[v]? with
      | some ws =>
        match lookupStr ws name with
        | some w => some (w, sim.time.length)
        | none => none
      | none => none

/-- One per-simulation reference curve's contribution to the cost:
`((data - waveform)^2 * weight).sum() * refData.weight` guarded by
`numPts > 0` and a successful waveform lookup with `n > 0`. -/
def refContribution (stateNames : List String) (sim : Sim) (v : ℕ)
    (name : String) (rd : RefData) : ℚ :=
  if 0 < rd.numPts then
    match getSimulationWaveform stateNames name sim v with
    | some (y, nPts) =>
      if 0 < nPts then
        (∑ t ∈ Finset.range rd.numPts.toNat,
          (y (rd.firstPt + t) - rd.waveform t) ^ 2 * sim.weight (rd.firstPt + t))
          * rd.weight
      else 0
    | none => 0
  else 0

/-- One simulation's total reference cost (all variable sets, all entries of
the per-set reference map). -/
def simCost (stateNames : List String) (sim : Sim) : ℚ :=
  ∑ v ∈ Finset.range sim.referenceData.length,
    (((sim.referenceData[v]?).getD []).map
      (fun kv => refContribution stateNames sim v kv.1 kv.2)).sum

/-- `SimulationsSummary::RefData`. -/
structure SummaryRefData where
  firstPt : ℕ
  numPts : ℤ
  waveform : ℕ → ℚ
  weight : ℚ

/-- The summary data read by `cost`: active flag, per-variable-set data
matrices (row-indexed), per-variable-set rows of reference curves. -/
structure Summary where
  isActive : Bool
  dataY : List (ℕ → ℕ → ℚ)
  referenceData : List (List SummaryRefData)

/-- One summary reference curve's contribution:
`((data - waveform)^2).sum() * refData.weight` — no per-sample weights. -/
def summaryRefContribution (row : ℕ → ℚ) (rd : SummaryRefData) : ℚ :=
  if 0 < rd.numPts then
    (∑ t ∈ Finset.range rd.numPts.toNat,
      (row (rd.firstPt + t) - rd.waveform t) ^ 2) * rd.weight
  else 0

/-- An active summary's total reference cost. -/
def summaryCost (s : Summary) : ℚ :=
  if s.isActive then
    ∑ v ∈ Finset.range s.referenceData.length,
      ∑ r ∈ Finset.range ((s.referenceData[v]?).getD []).length,
        summaryRefContribution (fun t => ((s.dataY[v]?).getD (fun _ _ => 0)) r t)
          (((s.referenceData[v]?).getD [])[r]?.getD ⟨0, 0, fun _ => 0, 0⟩)
  else 0

/-- `StimulusClampProtocol::cost`: per-simulation reference costs over the
`simulations` grid plus the active summaries' reference costs. -/
def protocolCost (stateNames : List String) (simulations : List (List Sim))
    (summaries : List Summary) : ℚ :=
  (simulations.map (fun rowL => (rowL.map (simCost stateNames)).sum)).sum
    + (summaries.map summaryCost).sum

/-- Concrete data exercising the cost function: a 2-sample, 1-state
probability matrix, a weight-1 zero reference curve over both samples, and a
simulation carrying that curve against state column `"C"`. -/
def costDemoP : PMat := ⟨2, 1, fun t s => if s = 0 then (t : ℚ) else 0⟩

def costDemoRef : RefData := ⟨0, 2, fun _ => 0, 1⟩

def costDemoSim : Sim :=
  ⟨[0, 1], fun _ => 1, [costDemoP], [], [], [[("C", costDemoRef)]]⟩

end StimulusClampProtocol

namespace StimulusClampProtocol

theorem poolExtends_refl (p : List (List (String × ℚ))) : PoolExtends p p :=
  fun _ _ h => h

theorem poolExtends_trans {p q r : List (List (String × ℚ))}
    (h1 : PoolExtends p q) (h2 : PoolExtends q r) : PoolExtends p r :=
  fun i x h => h2 i x (h1 i x h)

theorem internEpoch_mem {pool : List (List (String × ℚ))} {s : List (String × ℚ)}
    {x : List (String × ℚ)} (h : x ∈ (internEpoch pool s).1) : x ∈ pool ∨ x = s := by
  induction pool with
  | nil => simpa [internEpoch] using h
  | cons t rest ih =>
    by_cases hts : t = s
    · simp only [internEpoch, if_pos hts] at h
      exact Or.inl h
    · simp only [internEpoch, if_neg hts, List.mem_cons] at h
      rcases h with h | h
      · exact Or.inl (List.mem_cons.2 (Or.inl h))
      · rcases ih h with h2 | h2
        · exact Or.inl (List.mem_cons.2 (Or.inr h2))
        · exact Or.inr h2

theorem internEpoch_nodup {pool : List (List (String × ℚ))} {s : List (String × ℚ)}
    (h : pool.Nodup) : (internEpoch pool s).1.Nodup := by
  induction pool with
  | nil => simp [internEpoch]
  | cons t rest ih =>
    rcases List.nodup_cons.1 h with ⟨hts, hrest⟩
    by_cases he : t = s
    · simpa [internEpoch, he] using h
    · simp only [internEpoch, if_neg he]
      refine List.nodup_cons.2 ⟨?_, ih hrest⟩
      intro hmem
      rcases internEpoch_mem hmem with h2 | h2
      · exact hts h2
      · exact he h2

theorem internEpoch_extends (pool : List (List (String × ℚ))) (s : List (String × ℚ)) :
    PoolExtends pool (internEpoch pool s).1 := by
  induction pool with
  | nil => intro i x h; simp at h
  | cons t rest ih =>
    by_cases he : t = s
    · simp [internEpoch, he, poolExtends_refl]
    · intro i x h
      simp only [internEpoch, if_neg he]
      match i with
      | 0 => simpa using h
      | i + 1 =>
        simp only [List.getElem?_cons_succ] at h ⊢
        exact ih i x h

theorem internEpoch_get (pool : List (List (String × ℚ))) (s : List (String × ℚ)) :
    (internEpoch pool s).1[(internEpoch pool s).2]? = some s := by
  induction pool with
  | nil => simp [internEpoch]
  | cons t rest ih =>
    by_cases he : t = s
    · simp [internEpoch, he]
    · simpa [internEpoch, he] using ih

theorem nodup_getElem_inj {α : Type} {l : List α} (h : l.Nodup) {a b : ℕ} {x : α}
    (ha : l[a]? = some x) (hb : l[b]? = some x) : a = b := by
  rcases List.getElem?_eq_some.1 ha with ⟨hla, hxa⟩
  rcases List.getElem?_eq_some.1 hb with ⟨hlb, hxb⟩
  have : l.get ⟨a, hla⟩ = l.get ⟨b, hlb⟩ := by
    simp only [List.get_eq_getElem, hxa, hxb]
  have h2 := (List.Nodup.get_inj_iff h).1 this
  exact congrArg Fin.val h2

theorem internEpochs_spec (stims : List (List (String × ℚ))) :
    ∀ pool : List (List (String × ℚ)), pool.Nodup →
      (internEpochs pool stims).1.Nodup
      ∧ PoolExtends pool (internEpochs pool stims).1
      ∧ (internEpochs pool stims).2.length = stims.length
      ∧ ∀ (j : ℕ) (s : List (String × ℚ)) (i : ℕ),
          stims[j]? = some s → (internEpochs pool stims).2[j]? = some i →
          (internEpochs pool stims).1[i]? = some s := by
  induction stims with
  | nil =>
    intro pool hp
    exact ⟨hp, poolExtends_refl pool, rfl, by intro j s i hj; simp at hj⟩
  | cons s0 rest ih =>
    intro pool hp
    rcases ih (internEpoch pool s0).1 (internEpoch_nodup hp) with ⟨hnd, hext, hlen, hget⟩
    refine ⟨hnd, poolExtends_trans (internEpoch_extends pool s0) hext, by simpa [internEpochs] using hlen, ?_⟩
    intro j s i hj hi
    match j with
    | 0 =>
      simp only [List.getElem?_cons_zero, Option.some.injEq] at hj
      simp only [internEpochs, List.getElem?_cons_zero, Option.some.injEq] at hi
      subst hj; subst hi
      exact hext _ _ (internEpoch_get pool s0)
    | j + 1 =>
      simp only [List.getElem?_cons_succ] at hj
      simp only [internEpochs, List.getElem?_cons_succ] at hi
      exact hget j s i hj hi

/-- C2.  Epoch interning uniqueness: starting from a duplicate-free
`uniqueEpochs` pool (the simulator clears it before `init`), after all
epochs (of any simulations, in sequence) are interned, the `uniqueEpoch`
pointers (pool indices) assigned to any two epochs are equal iff their
stimuli maps are equal key-for-key and value-for-value. -/
theorem uniqueEpoch_pointer_eq_iff_stimuli_eq
    (pool : List (List (String × ℚ))) (hpool : pool.Nodup)
    (stims : List (List (String × ℚ))) (j k : ℕ)
    (hj : j < stims.length) (hk : k < stims.length) :
    (internEpochs pool stims).2[j]? = (internEpochs pool stims).2[k]?
      ↔ stims[j]? = stims[k]? := by
  rcases internEpochs_spec stims pool hpool with ⟨hnd, -, hlen, hget⟩
  obtain ⟨sj, hsj⟩ : ∃ y, stims[j]? = some y := ⟨_, List.getElem?_eq_getElem hj⟩
  obtain ⟨sk, hsk⟩ : ∃ y, stims[k]? = some y := ⟨_, List.getElem?_eq_getElem hk⟩
  obtain ⟨ij, hij⟩ : ∃ y, (internEpochs pool stims).2[j]? = some y :=
    ⟨_, List.getElem?_eq_getElem (hlen ▸ hj)⟩
  obtain ⟨ik, hik⟩ : ∃ y, (internEpochs pool stims).2[k]? = some y :=
    ⟨_, List.getElem?_eq_getElem (hlen ▸ hk)⟩
  have hpj := hget j sj ij hsj hij
  have hpk := hget k sk ik hsk hik
  constructor
  · intro h
    rw [hij, hik, Option.some.injEq] at h
    rw [hsj, hsk, Option.some.injEq]
    subst h
    rw [hpk] at hpj
    exact (Option.some_inj.1 hpj).symm
  · intro h
    rw [hsj, hsk, Option.some.injEq] at h
    rw [hij, hik, Option.some.injEq]
    exact nodup_getElem_inj hnd hpj (h ▸ hpk)

/-- Witness for C2 at a concrete pool and epoch sequence. -/
theorem uniqueEpoch_pointer_eq_iff_stimuli_eq_witness :
    ([] : List (List (String × ℚ))).Nodup
    ∧ (0 : ℕ) < ([[("x", 0)], [("x", 1)], [("x", 0)]] : List (List (String × ℚ))).length
    ∧ (2 : ℕ) < ([[("x", 0)], [("x", 1)], [("x", 0)]] : List (List (String × ℚ))).length
    ∧ ((internEpochs ([] : List (List (String × ℚ)))
          [[("x", 0)], [("x", 1)], [("x", 0)]]).2[0]?
        = (internEpochs ([] : List (List (String × ℚ)))
          [[("x", 0)], [("x", 1)], [("x", 0)]]).2[2]?
      ↔ ([[("x", 0)], [("x", 1)], [("x", 0)]] : List (List (String × ℚ)))[0]?
        = ([[("x", 0)], [("x", 1)], [("x", 0)]] : List (List (String × ℚ)))[2]?) :=
  ⟨List.nodup_nil, by decide, by decide,
    uniqueEpoch_pointer_eq_iff_stimuli_eq [] List.nodup_nil
      [[("x", 0)], [("x", 1)], [("x", 0)]] 0 2 (by decide) (by decide)⟩

theorem head?_append_of_ne_nil {α : Type} (l l2 : List α) (h : l ≠ []) :
    (l ++ l2).head? = l.head? := by
  cases l with
  | nil => exact absurd rfl h
  | cons a t => rfl

theorem epochWalk_inv (time : ℕ → ℚ) (stimuli : List (String × (ℕ → ℚ))) :
    ∀ (count i : ℕ) (closed cl : List Epoch) (cur cu : OpenEpoch),
      epochWalk time stimuli i count closed cur = (cl, cu) →
      cur.firstPt ≤ i →
      (closed.map Epoch.numPts).sum = cur.firstPt →
      (closed.map Epoch.duration).sum = cur.start - time 0 →
      (∀ x : Epoch, x.firstPt = cur.firstPt →
        ((closed ++ [x]).head?.map Epoch.firstPt = some 0)) →
      (∀ x : Epoch, x.firstPt = cur.firstPt →
        (closed ++ [x]).Chain' (fun a b => b.firstPt = a.firstPt + a.numPts)) →
      (cu.firstPt ≤ i + count
      ∧ (cl.map Epoch.numPts).sum = cu.firstPt
      ∧ (cl.map Epoch.duration).sum = cu.start - time 0
      ∧ (∀ x : Epoch, x.firstPt = cu.firstPt →
          ((cl ++ [x]).head?.map Epoch.firstPt = some 0))
      ∧ (∀ x : Epoch, x.firstPt = cu.firstPt →
          (cl ++ [x]).Chain' (fun a b => b.firstPt = a.firstPt + a.numPts))) := by
  intro count
  induction count with
  | zero =>
    intro i closed cl cur cu heq hle hsum hdur hhead hchain
    simp only [epochWalk, Prod.mk.injEq] at heq
    rcases heq with ⟨h1, h2⟩
    subst h1; subst h2
    exact ⟨by omega, hsum, hdur, hhead, hchain⟩
  | succ c ih =>
    intro i closed cl cur cu heq hle hsum hdur hhead hchain
    rw [epochWalk] at heq
    by_cases hsnap : stimuliSnapshot stimuli i ≠ stimuliSnapshot stimuli (i - 1)
    · rw [if_pos hsnap] at heq
      set e : Epoch :=
        ⟨cur.start, time i - cur.start, cur.firstPt, i - cur.firstPt, cur.stimuli⟩ with he
      set cur2 : OpenEpoch := ⟨time i, i, stimuliSnapshot stimuli i⟩ with hcur2
      have hef : e.firstPt = cur.firstPt := rfl
      have hen : e.numPts = i - cur.firstPt := rfl
      have hf2 : cur2.firstPt = i := rfl
      have hs2 : cur2.start = time i := rfl
      have hA : cur2.firstPt ≤ i + 1 := by rw [hf2]; omega
      have hB : ((closed ++ [e]).map Epoch.numPts).sum = cur2.firstPt := by
        rw [hf2]
        simp only [List.map_append, List.map_cons, List.map_nil, List.sum_append,
          List.sum_cons, List.sum_nil, hsum, hen]
        omega
      have hC : ((closed ++ [e]).map Epoch.duration).sum = cur2.start - time 0 := by
        rw [hs2]
        simp only [List.map_append, List.map_cons, List.map_nil, List.sum_append,
          List.sum_cons, List.sum_nil, hdur]
        ring
      have hD : ∀ x : Epoch, x.firstPt = cur2.firstPt →
          ((closed ++ [e]) ++ [x]).head?.map Epoch.firstPt = some 0 := by
        intro x _
        rw [head?_append_of_ne_nil (closed ++ [e]) [x] (by simp)]
        exact hhead e hef
      have hE : ∀ x : Epoch, x.firstPt = cur2.firstPt →
          ((closed ++ [e]) ++ [x]).Chain' (fun a b => b.firstPt = a.firstPt + a.numPts) := by
        intro x hx
        rw [List.chain'_append]
        refine ⟨hchain e hef, List.chain'_singleton x, ?_⟩
        intro a ha y hy
        rw [List.getLast?_concat, Option.mem_def, Option.some.injEq] at ha
        rw [List.head?_cons, Option.mem_def, Option.some.injEq] at hy
        rw [← ha, ← hy, hx, hf2, hef, hen]
        omega
      have hres := ih (i + 1) (closed ++ [e]) cl cur2 cu heq hA hB hC hD hE
      rcases hres with ⟨h1, h2, h3, h4, h5⟩
      exact ⟨by omega, h2, h3, h4, h5⟩
    · rw [if_neg hsnap] at heq
      have hres := ih (i + 1) closed cl cur cu heq (by omega) hsum hdur hhead hchain
      rcases hres with ⟨h1, h2, h3, h4, h5⟩
      exact ⟨by omega, h2, h3, h4, h5⟩

/-- C1.  After `Simulation::findEpochsDiscretizedToSamplePoints`, for any
time vector with `N ≥ 1` samples the epoch list partitions the sample
grid: the epoch `numPts` sum to `N`, the epoch durations sum to
`endTime - time[0]`, the first epoch has `firstPt = 0`, and each
subsequent epoch's `firstPt` is the previous epoch's `firstPt + numPts`. -/
theorem findEpochs_partition (time : ℕ → ℚ) (N : ℕ) (endTime : ℚ)
    (stimuli : List (String × (ℕ → ℚ))) (hN : 1 ≤ N) :
    ((findEpochsDiscretizedToSamplePoints time N endTime stimuli).map Epoch.numPts).sum = N
    ∧ ((findEpochsDiscretizedToSamplePoints time N endTime stimuli).map Epoch.duration).sum
        = endTime - time 0
    ∧ ((findEpochsDiscretizedToSamplePoints time N endTime stimuli).head?.map Epoch.firstPt
        = some 0)
    ∧ (findEpochsDiscretizedToSamplePoints time N endTime stimuli).Chain'
        (fun a b => b.firstPt = a.firstPt + a.numPts) := by
  obtain ⟨cl, cu, heq⟩ :
      ∃ cl cu, epochWalk time stimuli 1 (N - 1) [] ⟨time 0, 0, stimuliSnapshot stimuli 0⟩
        = (cl, cu) :=
    ⟨_, _, rfl⟩
  have hres := epochWalk_inv time stimuli (N - 1) 1 [] cl
    ⟨time 0, 0, stimuliSnapshot stimuli 0⟩ cu heq
    (Nat.zero_le 1) rfl (by show (0 : ℚ) = time 0 - time 0; ring)
    (by intro x hx; simpa using hx)
    (by intro x hx; simp)
  rcases hres with ⟨h1, h2, h3, h4, h5⟩
  have hfin : cu.firstPt ≤ N := by omega
  unfold findEpochsDiscretizedToSamplePoints
  rw [heq]
  refine ⟨?_, ?_, ?_, ?_⟩
  · simp only [List.map_append, List.map_cons, List.map_nil, List.sum_append,
      List.sum_cons, List.sum_nil, h2]
    omega
  · simp only [List.map_append, List.map_cons, List.map_nil, List.sum_append,
      List.sum_cons, List.sum_nil, h3]
    ring
  · exact h4 _ rfl
  · exact h5 _ rfl

theorem argminAbsAux_spec (f : ℕ → ℚ) (t : ℚ) :
    ∀ (count i best : ℕ) (bv : ℚ),
      bv = |f best - t| → best < i →
      (∀ j, j < i → bv ≤ |f j - t|) →
      (∀ j, j < best → bv < |f j - t|) →
      (argminAbsAux f t count i best bv < i + count
      ∧ (∀ j, j < i + count → |f (argminAbsAux f t count i best bv) - t| ≤ |f j - t|)
      ∧ (∀ j, j < argminAbsAux f t count i best bv →
          |f (argminAbsAux f t count i best bv) - t| < |f j - t|)) := by
  intro count
  induction count with
  | zero =>
    intro i best bv hbv hlt hmin hfirst
    simp only [argminAbsAux, Nat.add_zero]
    exact ⟨hlt, fun j hj => hbv ▸ hmin j hj, fun j hj => hbv ▸ hfirst j hj⟩
  | succ c ih =>
    intro i best bv hbv hlt hmin hfirst
    rw [argminAbsAux]
    by_cases hc : |f i - t| < bv
    · rw [if_pos hc]
      have hres := ih (i + 1) i (|f i - t|) rfl (by omega)
        (by
          intro j hj
          rcases Nat.lt_succ_iff_lt_or_eq.1 hj with hj2 | hj2
          · exact le_of_lt (lt_of_lt_of_le hc (hmin j hj2))
          · rw [hj2])
        (by intro j hj; exact lt_of_lt_of_le hc (hmin j (by omega)))
      rwa [show i + 1 + c = i + (c + 1) from by omega] at hres
    · rw [if_neg hc]
      have hres := ih (i + 1) best bv hbv (by omega)
        (by
          intro j hj
          rcases Nat.lt_succ_iff_lt_or_eq.1 hj with hj2 | hj2
          · exact hmin j hj2
          · rw [hj2]; exact le_of_not_lt hc)
        hfirst
      rwa [show i + 1 + c = i + (c + 1) from by omega] at hres

theorem argminAbs_spec (f : ℕ → ℚ) (N : ℕ) (t : ℚ) (hN : 1 ≤ N) :
    argminAbs f N t < N
    ∧ (∀ j, j < N → |f (argminAbs f N t) - t| ≤ |f j - t|)
    ∧ (∀ j, j < argminAbs f N t → |f (argminAbs f N t) - t| < |f j - t|) := by
  have hres := argminAbsAux_spec f t (N - 1) 1 0 (|f 0 - t|) rfl (by omega)
    (by intro j hj; have hj0 : j = 0 := by omega
        rw [hj0])
    (by intro j hj; exact absurd hj (by omega))
  rwa [show 1 + (N - 1) = N from by omega] at hres

/-- C5 counterexample: on the strictly increasing time vector
`[0, 1, 2, 3]` with `start = 3`, `stop = 0`, `ε = 1/100`,
`findIndexesInRange` returns `numPts = -3`, which is negative — the code
has no `max(0, endPt - firstPt)` clamp. -/
theorem findIndexesInRange_counterexample :
    findIndexesInRange (fun i => (i : ℚ)) 4 3 0 (1 / 100) = (3, -3)
    ∧ (findIndexesInRange (fun i => (i : ℚ)) 4 3 0 (1 / 100)).2 < 0
    ∧ (findIndexesInRange (fun i => (i : ℚ)) 4 3 0 (1 / 100)).2 ≠ max 0 (-3) := by
  have h : findIndexesInRange (fun i => (i : ℚ)) 4 3 0 (1 / 100) = (3, -3) := by
    norm_num [findIndexesInRange, argminAbs, argminAbsAux]
  exact ⟨h, by rw [h]; norm_num, by rw [h]; norm_num⟩

/-- C5 amended.  For every time vector (`N ≥ 1`, strictly increasing) and
every `start`, `stop`, `ε`: `firstPt` is the first index of the sample
closest to `start`, advanced by one when `time[firstPt] < start - ε`
(`endPt` analogously for `stop`), and the returned `numPts` equals
`endPt - firstPt` when `firstPt < N` and `0` otherwise — without the
`max(0, ·)` clamp the claim states, so `numPts` can be negative when
`stop < start`. -/
theorem findIndexesInRange_spec (time : ℕ → ℚ) (N : ℕ) (start stop ε : ℚ)
    (hN : 1 ≤ N) (_hmono : ∀ i j, i < j → j < N → time i < time j) :
    ∃ cf ce : ℕ,
      cf < N ∧ (∀ j, j < N → |time cf - start| ≤ |time j - start|)
      ∧ (∀ j, j < cf → |time cf - start| < |time j - start|)
      ∧ ce < N ∧ (∀ j, j < N → |time ce - stop| ≤ |time j - stop|)
      ∧ (∀ j, j < ce → |time ce - stop| < |time j - stop|)
      ∧ (findIndexesInRange time N start stop ε).1
          = (if time cf < start - ε then (cf : ℤ) + 1 else (cf : ℤ))
      ∧ (findIndexesInRange time N start stop ε).2
          = (if (if time cf < start - ε then (cf : ℤ) + 1 else (cf : ℤ)) < (N : ℤ)
             then (if time ce < stop - ε then (ce : ℤ) + 1 else (ce : ℤ))
               - (if time cf < start - ε then (cf : ℤ) + 1 else (cf : ℤ))
             else 0) := by
  obtain ⟨h1, h2, h3⟩ := argminAbs_spec time N start hN
  obtain ⟨h4, h5, h6⟩ := argminAbs_spec time N stop hN
  refine ⟨argminAbs time N start, argminAbs time N stop, h1, h2, h3, h4, h5, h6, ?_, ?_⟩
  · rw [findIndexesInRange]
    split_ifs <;> simp [*]
  · rw [findIndexesInRange]
    split_ifs <;> simp [*]

/-- Witness for the amended C5 at the counterexample's concrete input. -/
theorem findIndexesInRange_spec_witness :
    1 ≤ 4
    ∧ (∀ i j : ℕ, i < j → j < 4 → ((i : ℚ)) < ((j : ℚ)))
    ∧ (∃ cf ce : ℕ,
      cf < 4 ∧ (∀ j : ℕ, j < 4 → |(cf : ℚ) - 3| ≤ |(j : ℚ) - 3|)
      ∧ (∀ j : ℕ, j < cf → |(cf : ℚ) - 3| < |(j : ℚ) - 3|)
      ∧ ce < 4 ∧ (∀ j : ℕ, j < 4 → |(ce : ℚ) - 0| ≤ |(j : ℚ) - 0|)
      ∧ (∀ j : ℕ, j < ce → |(ce : ℚ) - 0| < |(j : ℚ) - 0|)
      ∧ (findIndexesInRange (fun i => (i : ℚ)) 4 3 0 (1 / 100)).1
          = (if ((cf : ℚ)) < 3 - 1 / 100 then (cf : ℤ) + 1 else (cf : ℤ))
      ∧ (findIndexesInRange (fun i => (i : ℚ)) 4 3 0 (1 / 100)).2
          = (if (if ((cf : ℚ)) < 3 - 1 / 100 then (cf : ℤ) + 1 else (cf : ℤ)) < (((4 : ℕ)) : ℤ)
             then (if ((ce : ℚ)) < 0 - 1 / 100 then (ce : ℤ) + 1 else (ce : ℤ))
               - (if ((cf : ℚ)) < 3 - 1 / 100 then (cf : ℤ) + 1 else (cf : ℤ))
             else 0)) :=
  ⟨by norm_num,
    by intro i j hij hj; exact_mod_cast hij,
    findIndexesInRange_spec (fun i => (i : ℚ)) 4 3 0 (1 / 100) (by norm_num)
      (by intro i j hij hj; simpa using (Nat.cast_lt (α := ℚ)).2 hij)⟩

theorem sampleLoop_diagonal (x yref : ℤ → ℚ) (N : ℕ) (ε : ℚ) (hε : 0 < ε) :
    ∀ d j : ℕ, j + d = N →
      ∀ fuel : ℕ, d < fuel → ∀ (y : ℤ → ℚ) (fp : ℤ),
      sampleLoop x yref (N : ℤ) x (N : ℤ) 0 ε 1 1 fuel ((j : ℤ), (j : ℤ), y, fp)
        = ((N : ℤ), (N : ℤ),
           (fun k => if (j : ℤ) ≤ k ∧ k < (N : ℤ) then yref k else y k),
           if fp = -1 ∧ j < N then (j : ℤ) else fp) := by
  intro d
  induction d with
  | zero =>
    intro j hj fuel hfuel y fp
    match fuel, hfuel with
    | fuel + 1, _ =>
      have hjN : j = N := by omega
      subst hjN
      rw [sampleLoop]
      rw [if_neg (by omega)]
      have hy : (fun k => if (j : ℤ) ≤ k ∧ k < (j : ℤ) then yref k else y k) = y := by
        funext k
        rw [if_neg (by omega)]
      have hfp2 : (if fp = -1 ∧ j < j then (j : ℤ) else fp) = fp := by
        rw [if_neg (by omega)]
      rw [hy, hfp2]
  | succ d ih =>
    intro j hj fuel hfuel y fp
    match fuel, hfuel with
    | fuel + 1, hfuel =>
      have hjN : j < N := by omega
      rw [sampleLoop]
      rw [if_pos (by omega)]
      rw [if_neg (by intro h; nlinarith [hε])]
      rw [if_pos (by
        have h0 : x (j : ℤ) - (x (j : ℤ) - 0) = 0 := by ring
        rw [h0, abs_zero]
        exact hε)]
      have hrec := ih (j + 1) (by omega) fuel (by omega)
        (fun k => if k = (j : ℤ) then yref (j : ℤ) else y k)
        (if fp = -1 then (j : ℤ) else fp)
      rw [show ((j + 1 : ℕ) : ℤ) = (j : ℤ) + 1 from by push_cast; ring] at hrec
      rw [hrec]
      have hy : (fun k => if ((j : ℤ) + 1) ≤ k ∧ k < (N : ℤ) then yref k
            else if k = (j : ℤ) then yref (j : ℤ) else y k)
          = (fun k => if (j : ℤ) ≤ k ∧ k < (N : ℤ) then yref k else y k) := by
        funext k
        by_cases hk1 : ((j : ℤ) + 1) ≤ k ∧ k < (N : ℤ)
        · rw [if_pos hk1, if_pos (by omega)]
        · rw [if_neg hk1]
          by_cases hkj : k = (j : ℤ)
          · rw [if_pos hkj, if_pos (by subst hkj; omega)]
            rw [hkj]
          · rw [if_neg hkj, if_neg (by omega)]
      have hfp2 : (if (if fp = -1 then (j : ℤ) else fp) = -1 ∧ j + 1 < N
            then ((j : ℤ) + 1) else if fp = -1 then (j : ℤ) else fp)
          = (if fp = -1 ∧ j < N then (j : ℤ) else fp) := by
        by_cases hfp : fp = -1
        · rw [if_pos hfp]
          rw [if_neg (by omega)]
          rw [if_pos ⟨hfp, hjN⟩]
        · rw [if_neg hfp, if_neg (by tauto), if_neg (by tauto)]
      rw [hy, hfp2]

/-- C8.  Round-trip of the reference resampler: when `sampleArray` is
called with `xref` identical to the (strictly increasing, `N ≥ 1`-sample)
grid `x`, `yref` of the same length, `x0 = 0` and a positive `ε` smaller
than the minimum grid spacing, it returns `firstPt = 0`, `numPts = N` and
writes `y[i] = yref[i]` for every `i ∈ [0, N)`. -/
theorem sampleArray_roundTrip (N : ℕ) (x yref y0 : ℤ → ℚ) (ε : ℚ)
    (hN : 1 ≤ N) (hε : 0 < ε)
    (hmono : ∀ i j : ℤ, 0 ≤ i → i < j → j < (N : ℤ) → x i < x j)
    (_hsmall : ∀ i : ℤ, 0 ≤ i → i + 1 < (N : ℤ) → ε < x (i + 1) - x i) :
    (sampleArray x yref (N : ℤ) x y0 (N : ℤ) 0 ε).2.1 = 0
    ∧ (sampleArray x yref (N : ℤ) x y0 (N : ℤ) 0 ε).2.2 = (N : ℤ)
    ∧ ∀ k : ℤ, 0 ≤ k → k < (N : ℤ) →
        (sampleArray x yref (N : ℤ) x y0 (N : ℤ) 0 ε).1 k = yref k := by
  have hdir : ¬(2 ≤ (N : ℤ) ∧ x 1 - x 0 < 0) := by
    rintro ⟨h2, hneg⟩
    have := hmono 0 1 le_rfl one_pos (by omega)
    linarith
  have hdiag := sampleLoop_diagonal x yref N ε hε N 0 (by omega)
    ((N : ℤ).toNat + (N : ℤ).toNat + 1) (by omega) y0 (-1)
  rw [show ((0 : ℕ) : ℤ) = (0 : ℤ) from rfl] at hdiag
  rw [if_pos ⟨rfl, by omega⟩] at hdiag
  have hsa : sampleArray x yref (N : ℤ) x y0 (N : ℤ) 0 ε
      = ((fun k => if (0 : ℤ) ≤ k ∧ k < (N : ℤ) then yref k else y0 k), 0, (N : ℤ)) := by
    rw [sampleArray]
    simp only [if_neg hdir]
    rw [hdiag]
    dsimp only
    rw [if_neg (by decide), sub_zero]
  rw [hsa]
  refine ⟨rfl, rfl, ?_⟩
  intro k hk0 hkN
  dsimp only
  rw [if_pos ⟨hk0, hkN⟩]

/-- Witness for C8 on the two-point grid `x = [0, 1]`. -/
theorem sampleArray_roundTrip_witness :
    1 ≤ 2 ∧ (0 : ℚ) < 1 / 2
    ∧ (∀ i j : ℤ, 0 ≤ i → i < j → j < ((2 : ℕ) : ℤ) →
        ((i : ℚ)) < ((j : ℚ)))
    ∧ (∀ i : ℤ, 0 ≤ i → i + 1 < ((2 : ℕ) : ℤ) →
        (1 / 2 : ℚ) < ((i + 1 : ℤ) : ℚ) - ((i : ℚ)))
    ∧ ((sampleArray (fun i => (i : ℚ)) (fun i => (10 * i : ℚ)) ((2 : ℕ) : ℤ)
          (fun i => (i : ℚ)) (fun _ => 0) ((2 : ℕ) : ℤ) 0 (1 / 2)).2.1 = 0
      ∧ (sampleArray (fun i => (i : ℚ)) (fun i => (10 * i : ℚ)) ((2 : ℕ) : ℤ)
          (fun i => (i : ℚ)) (fun _ => 0) ((2 : ℕ) : ℤ) 0 (1 / 2)).2.2 = ((2 : ℕ) : ℤ)
      ∧ ∀ k : ℤ, 0 ≤ k → k < ((2 : ℕ) : ℤ) →
          (sampleArray (fun i => (i : ℚ)) (fun i => (10 * i : ℚ)) ((2 : ℕ) : ℤ)
            (fun i => (i : ℚ)) (fun _ => 0) ((2 : ℕ) : ℤ) 0 (1 / 2)).1 k
            = (10 * k : ℚ)) :=
  ⟨by norm_num, by norm_num,
    by intro i j h0 hij hj; exact_mod_cast hij,
    by intro i h0 h1; push_cast; norm_num,
    sampleArray_roundTrip 2 (fun i => (i : ℚ)) (fun i => (10 * i : ℚ)) (fun _ => 0)
      (1 / 2) (by norm_num) (by norm_num)
      (by intro i j h0 hij hj; show ((i : ℚ)) < ((j : ℚ)); exact_mod_cast hij)
      (by intro i h0 h1; show (1 / 2 : ℚ) < ((i + 1 : ℤ) : ℚ) - ((i : ℚ)); push_cast; norm_num)⟩

theorem maxAbsCoeff_ge (row : List ℚ) : ∀ a ∈ row, |a| ≤ maxAbsCoeff row := by
  induction row with
  | nil => intro a ha; simp at ha
  | cons b t ih =>
    intro a ha
    rcases List.mem_cons.1 ha with h | h
    · subst h
      exact le_max_left _ _
    · exact le_trans (ih a h) (le_max_right _ _)

/-- C6 counterexample: a `PerRow` summary whose single row is the all-zero
row `[0]` has normalising denominator `max |row| = 0`; the code divides by
it anyway, so the row becomes non-finite (`none`) instead of being left
unchanged (`some 0`). -/
theorem summaryNormalization_counterexample :
    applySummaryNormalization SummaryNormalization.PerRow [[0]] = [[none]]
    ∧ applySummaryNormalization SummaryNormalization.PerRow [[0]]
        ≠ [[some ((0 : ℚ))]] := by
  have h : applySummaryNormalization SummaryNormalization.PerRow [[0]] = [[none]] := by
    simp [applySummaryNormalization, normalizeRow, ieeeDiv, maxAbsCoeff]
  exact ⟨h, by rw [h]; simp⟩

/-- C6 amended.  The summary normalisation has no division-by-zero guard:
for `PerRow`, a row whose normalising denominator `max |row|` is zero is
necessarily all-zero and every entry of it is divided by zero, becoming
non-finite (`none`) — the data is not left unchanged; when the denominator
is nonzero the row divides through normally.  For `AllRows` a zero global
maximum likewise turns every entry non-finite. -/
theorem summaryNormalization_no_zero_guard (dataY : List (List ℚ)) :
    (∀ row ∈ dataY, maxAbsCoeff row = 0 →
      (∀ a ∈ row, a = 0) ∧ ∀ o ∈ normalizeRow row, o = none)
    ∧ (∀ row ∈ dataY, maxAbsCoeff row ≠ 0 →
      normalizeRow row = row.map (fun a => some (a / maxAbsCoeff row)))
    ∧ (maxAbsMatrix dataY = 0 →
      ∀ row2 ∈ applySummaryNormalization SummaryNormalization.AllRows dataY,
        ∀ o ∈ row2, o = none)
    ∧ applySummaryNormalization SummaryNormalization.PerRow dataY
        = dataY.map normalizeRow := by
  refine ⟨?_, ?_, ?_, rfl⟩
  · intro row _ hmax
    constructor
    · intro a ha
      have h1 := maxAbsCoeff_ge row a ha
      rw [hmax] at h1
      exact abs_eq_zero.1 (le_antisymm h1 (abs_nonneg a))
    · intro o ho
      rcases List.mem_map.1 ho with ⟨a, _, hao⟩
      rw [← hao, ieeeDiv, if_pos hmax]
  · intro row _ hmax
    unfold normalizeRow
    refine List.map_congr_left ?_
    intro a _
    rw [ieeeDiv, if_neg hmax]
  · intro hmax row2 hrow2 o ho
    rcases List.mem_map.1 hrow2 with ⟨row, _, hrr⟩
    rw [← hrr] at ho
    rcases List.mem_map.1 ho with ⟨a, _, hao⟩
    rw [← hao, ieeeDiv, if_pos hmax]

/-- Witness for the amended C6 at the concrete all-zero matrix `[[0]]`. -/
theorem summaryNormalization_no_zero_guard_witness :
    ([0] ∈ ([[0]] : List (List ℚ)))
    ∧ maxAbsCoeff [0] = 0
    ∧ ((∀ a ∈ ([0] : List ℚ), a = 0) ∧ ∀ o ∈ normalizeRow [0], o = none) :=
  ⟨by simp, by simp [maxAbsCoeff],
    (summaryNormalization_no_zero_guard [[0]]).1 [0] (by simp) (by simp [maxAbsCoeff])⟩

theorem padProbability_length (prob : List PMat) (idx N S : ℕ) :
    (padProbability prob idx N S).length = max prob.length (idx + 1) := by
  unfold padProbability
  rw [List.length_append, List.length_replicate]
  omega

theorem padProbability_of_le (prob : List PMat) (idx N S : ℕ) (h : idx + 1 ≤ prob.length) :
    padProbability prob idx N S = prob := by
  unfold padProbability
  rw [show idx + 1 - prob.length = 0 from by omega]
  simp

/-- C10.  `Simulation::spectralSimulation` zeroes
`probability[variableSetIndex]` before accumulating, so (the epoch list,
time grid and arguments being unchanged by a run) calling it twice in
succession yields exactly the state of a single call — results are
replaced, never accumulated across calls — and afterwards the
`probability` vector has at least `variableSetIndex + 1` entries, each of
shape `N × S` (given that the entries already present had that shape). -/
theorem spectralSimulation_idempotent (sim : SpectralSim) (p0 : ℕ → ℚ) (S : ℕ)
    (eq : Bool) (idx : ℕ) (rexp : ℚ → ℚ)
    (hshape : ∀ M ∈ sim.probability, M.rows = sim.N ∧ M.cols = S) :
    spectralSimulation (spectralSimulation sim p0 S eq idx rexp) p0 S eq idx rexp
      = spectralSimulation sim p0 S eq idx rexp
    ∧ idx + 1 ≤ (spectralSimulation sim p0 S eq idx rexp).probability.length
    ∧ ∀ j, j ≤ idx → ∀ M : PMat,
        (spectralSimulation sim p0 S eq idx rexp).probability[j]? = some M →
        M.rows = sim.N ∧ M.cols = S := by
  have hlen1 : idx + 1 ≤ (padProbability sim.probability idx sim.N S).length := by
    rw [padProbability_length]; omega
  refine ⟨?_, ?_, ?_⟩
  · show spectralSimulation
        { sim with probability :=
            ((padProbability sim.probability idx sim.N S).set idx
              ⟨sim.N, S, spectralLoop sim.time S rexp eq sim.epochs 0 (fun _ _ => 0) p0⟩) }
        p0 S eq idx rexp = _
    unfold spectralSimulation
    simp only []
    congr 1
    rw [padProbability_of_le _ _ _ _ (by rw [List.length_set]; exact hlen1)]
    rw [List.set_set]
  · show idx + 1 ≤ ((padProbability sim.probability idx sim.N S).set idx _).length
    rw [List.length_set]
    exact hlen1
  · intro j hj M hM
    show M.rows = sim.N ∧ M.cols = S
    rcases Nat.lt_or_ge j idx with hlt | hge
    · rw [show (spectralSimulation sim p0 S eq idx rexp).probability
          = (padProbability sim.probability idx sim.N S).set idx
              ⟨sim.N, S, spectralLoop sim.time S rexp eq sim.epochs 0 (fun _ _ => 0) p0⟩
          from rfl] at hM
      rw [List.getElem?_set_ne (by omega)] at hM
      unfold padProbability at hM
      rcases Nat.lt_or_ge j sim.probability.length with hj2 | hj2
      · rw [List.getElem?_append_left hj2] at hM
        rcases List.getElem?_eq_some.1 hM with ⟨hjl, hjv⟩
        exact hshape M (hjv ▸ List.getElem_mem hjl)
      · rw [List.getElem?_append_right hj2] at hM
        rw [List.getElem?_replicate] at hM
        split at hM
        · rcases Option.some_inj.1 hM with h
          rw [← h]
          exact ⟨rfl, rfl⟩
        · exact absurd hM (by simp)
    · have hje : j = idx := by omega
      rw [hje] at hM
      rw [show (spectralSimulation sim p0 S eq idx rexp).probability
          = (padProbability sim.probability idx sim.N S).set idx
              ⟨sim.N, S, spectralLoop sim.time S rexp eq sim.epochs 0 (fun _ _ => 0) p0⟩
          from rfl] at hM
      rw [List.getElem?_set_self (by omega)] at hM
      rcases Option.some_inj.1 hM with h
      rw [← h]
      exact ⟨rfl, rfl⟩

/-- Witness for C10 at a concrete one-sample, one-epoch simulation. -/
theorem spectralSimulation_idempotent_witness :
    (∀ M ∈ (SpectralSim.mk 1 (fun _ => 0) [⟨0, 1, 0, 1, fun _ => 0, fun _ _ _ => 0⟩]
        []).probability, M.rows = 1 ∧ M.cols = 1)
    ∧ (spectralSimulation
        (spectralSimulation
          (SpectralSim.mk 1 (fun _ => 0) [⟨0, 1, 0, 1, fun _ => 0, fun _ _ _ => 0⟩] [])
          (fun _ => 1) 1 false 0 id)
        (fun _ => 1) 1 false 0 id
      = spectralSimulation
          (SpectralSim.mk 1 (fun _ => 0) [⟨0, 1, 0, 1, fun _ => 0, fun _ _ _ => 0⟩] [])
          (fun _ => 1) 1 false 0 id
    ∧ 0 + 1 ≤ (spectralSimulation
          (SpectralSim.mk 1 (fun _ => 0) [⟨0, 1, 0, 1, fun _ => 0, fun _ _ _ => 0⟩] [])
          (fun _ => 1) 1 false 0 id).probability.length
    ∧ ∀ j, j ≤ 0 → ∀ M : PMat,
        (spectralSimulation
          (SpectralSim.mk 1 (fun _ => 0) [⟨0, 1, 0, 1, fun _ => 0, fun _ _ _ => 0⟩] [])
          (fun _ => 1) 1 false 0 id).probability[j]? = some M →
        M.rows = 1 ∧ M.cols = 1) :=
  ⟨by intro M hM; simp at hM,
    spectralSimulation_idempotent
      (SpectralSim.mk 1 (fun _ => 0) [⟨0, 1, 0, 1, fun _ => 0, fun _ _ _ => 0⟩] [])
      (fun _ => 1) 1 false 0 id (by intro M hM; simp at hM)⟩

theorem consecutiveTo_end_le (endTime : ℚ) :
    ∀ (rest : List MCEpoch) (e : MCEpoch),
      ConsecutiveTo endTime (e :: rest) →
      (∀ x ∈ e :: rest, 0 ≤ x.duration) →
      e.start + e.duration ≤ endTime := by
  intro rest
  induction rest with
  | nil => intro e hc _; exact le_of_eq hc
  | cons e2 rest2 ih =>
    intro e hc hd
    rcases hc with ⟨h1, h2⟩
    have h3 := ih e2 h2 (fun x hx => hd x (List.mem_cons_of_mem _ hx))
    have h4 : 0 ≤ e2.duration := hd e2 (by simp)
    linarith [h1.symm.le, h1.le]

theorem mcTruncate_spec (endTime ε : ℚ) (ω : ℕ → ℚ) (s : ℕ) (t : ℚ)
    (hω : ∀ m, 0 ≤ ω m) (hET0 : 0 ≤ endTime) :
    ∀ (rest : List MCEpoch) (cur : MCEpoch) (lifetime : ℚ) (k : ℕ),
      0 ≤ lifetime →
      t ≤ cur.start + cur.duration →
      ConsecutiveTo endTime (cur :: rest) →
      (∀ x ∈ cur :: rest, 0 ≤ x.duration) →
      (∀ dfin k2, mcTruncate endTime ε ω s t lifetime cur rest k = (Sum.inl dfin, k2) →
          dfin = endTime - t)
      ∧ (∀ l2 cur2 rest2 k2,
          mcTruncate endTime ε ω s t lifetime cur rest k = (Sum.inr (l2, cur2, rest2), k2) →
          0 ≤ l2 ∧ t + l2 ≤ cur2.start + cur2.duration
          ∧ ConsecutiveTo endTime (cur2 :: rest2)
          ∧ (∀ x ∈ cur2 :: rest2, 0 ≤ x.duration)) := by
  intro rest
  induction rest with
  | nil =>
    intro cur lifetime k hl ht hc hd
    constructor
    · intro dfin k2 heq
      rw [mcTruncate] at heq
      split at heq
      · rcases Prod.mk.injEq .. ▸ heq with ⟨h1, -⟩
        exact (Sum.inl.injEq .. ▸ h1).symm ▸ rfl
      · exact absurd heq (by simp)
    · intro l2 cur2 rest2 k2 heq
      rw [mcTruncate] at heq
      split at heq
      · exact absurd heq (by simp)
      · rcases Prod.mk.injEq .. ▸ heq with ⟨h1, -⟩
        rcases Sum.inr.injEq .. ▸ h1 with h2
        rcases Prod.mk.injEq .. ▸ h2 with ⟨hA, hB⟩
        rcases Prod.mk.injEq .. ▸ hB with ⟨hC, hD⟩
        subst hA; subst hC; subst hD
        exact ⟨hl, by linarith [not_lt.1 (by assumption : ¬t + lifetime > cur.start + cur.duration)], hc, hd⟩
  | cons next rest2 ih =>
    intro cur lifetime k hl ht hc hd
    rcases hc with ⟨hc1, hc2⟩
    have hdnext : 0 ≤ next.duration := hd next (by simp)
    constructor
    · intro dfin k2 heq
      rw [mcTruncate] at heq
      split at heq
      · have hrec := ih next ((cur.start + cur.duration - t)
            + if -(next.Q s s) < ε then endTime else ω k)
          (if -(next.Q s s) < ε then k else k + 1)
          (by
            have hd2 : 0 ≤ (if -(next.Q s s) < ε then endTime else ω k) := by
              split
              · exact hET0
              · exact hω k
            linarith)
          (by rw [hc1]; linarith)
          hc2
          (fun x hx => hd x (List.mem_cons_of_mem _ hx))
        exact hrec.1 dfin k2 heq
      · exact absurd heq (by simp)
    · intro l2 cur2 r2 k2 heq
      rw [mcTruncate] at heq
      split at heq
      · have hrec := ih next ((cur.start + cur.duration - t)
            + if -(next.Q s s) < ε then endTime else ω k)
          (if -(next.Q s s) < ε then k else k + 1)
          (by
            have hd2 : 0 ≤ (if -(next.Q s s) < ε then endTime else ω k) := by
              split
              · exact hET0
              · exact hω k
            linarith)
          (by rw [hc1]; linarith)
          hc2
          (fun x hx => hd x (List.mem_cons_of_mem _ hx))
        exact hrec.2 l2 cur2 r2 k2 heq
      · rcases Prod.mk.injEq .. ▸ heq with ⟨h1, -⟩
        rcases Sum.inr.injEq .. ▸ h1 with h2
        rcases Prod.mk.injEq .. ▸ h2 with ⟨hA, hB⟩
        rcases Prod.mk.injEq .. ▸ hB with ⟨hC, hD⟩
        subst hA; subst hC; subst hD
        exact ⟨hl, by linarith [not_lt.1 (by assumption : ¬t + lifetime > cur.start + cur.duration)],
          ⟨hc1, hc2⟩, hd⟩

theorem mcChainAux_spec (endTime ε : ℚ) (ω : ℕ → ℚ) (S : ℕ)
    (hω : ∀ m, 0 ≤ ω m) :
    ∀ (fuel : ℕ) (t : ℚ) (s : ℕ) (cur : MCEpoch) (rest : List MCEpoch) (k : ℕ)
      (c : List MCEvent),
      mcChainAux endTime ε ω S fuel t s cur rest k = some c →
      0 ≤ t → t < endTime →
      t ≤ cur.start + cur.duration →
      ConsecutiveTo endTime (cur :: rest) →
      (∀ x ∈ cur :: rest, 0 ≤ x.duration) →
      (c.map MCEvent.duration).sum = endTime - t ∧ ∀ ev ∈ c, 0 ≤ ev.duration := by
  intro fuel
  induction fuel with
  | zero =>
    intro t s cur rest k c heq
    rw [mcChainAux] at heq
    exact absurd heq (by simp)
  | succ fuel ih =>
    intro t s cur rest k c heq ht0 htE htc hcons hdur
    have hET0 : (0 : ℚ) ≤ endTime := le_of_lt (lt_of_le_of_lt ht0 htE)
    rw [mcChainAux] at heq
    rw [if_pos htE] at heq
    dsimp only at heq
    have hl0 : 0 ≤ (if -(cur.Q s s) < ε then endTime else ω k) := by
      split
      · exact hET0
      · exact hω k
    have htr := mcTruncate_spec endTime ε ω s t hω hET0 rest cur
      (if -(cur.Q s s) < ε then endTime else ω k)
      (if -(cur.Q s s) < ε then k else k + 1)
      hl0 htc hcons hdur
    rcases hmatch : mcTruncate endTime ε ω s t
        (if -(cur.Q s s) < ε then endTime else ω k) cur rest
        (if -(cur.Q s s) < ε then k else k + 1) with ⟨res, k2⟩
    rw [hmatch] at heq
    rcases res with dfin | ⟨lifetime, cur2, rest2⟩
    · dsimp only at heq
      have hdf := htr.1 dfin k2 hmatch
      have hcv : c = [⟨s, dfin⟩] := (Option.some_inj.1 heq).symm
      subst hcv
      subst hdf
      constructor
      · simp
      · intro ev hev
        rcases List.mem_singleton.1 hev with h
        rw [h]
        show 0 ≤ endTime - t
        linarith
    · dsimp only at heq
      rcases htr.2 lifetime cur2 rest2 k2 hmatch with ⟨hl2, hlt2, hcons2, hdur2⟩
      by_cases ht2 : t + lifetime < endTime
      · rw [if_pos ht2] at heq
        rcases hrec : mcChainAux endTime ε ω S fuel (t + lifetime)
            (selectNextState cur2.Q S s (-(cur2.Q s s)) (ω k2)) cur2 rest2 (k2 + 1)
          with _ | c2
        · rw [hrec] at heq
          exact absurd heq (by simp)
        · rw [hrec] at heq
          have hcv : c = ⟨s, lifetime⟩ :: c2 := (Option.some_inj.1 heq).symm
          subst hcv
          rcases ih (t + lifetime) _ cur2 rest2 (k2 + 1) c2 hrec
            (by linarith) ht2 hlt2 hcons2 hdur2 with ⟨hsum, hnn⟩
          constructor
          · rw [List.map_cons, List.sum_cons, hsum]
            show lifetime + (endTime - (t + lifetime)) = endTime - t
            ring
          · intro ev hev
            rcases List.mem_cons.1 hev with h | h
            · rw [h]; exact hl2
            · exact hnn ev h
      · rw [if_neg ht2] at heq
        have hcv : c = [⟨s, lifetime⟩] := (Option.some_inj.1 heq).symm
        subst hcv
        have hend2 : cur2.start + cur2.duration ≤ endTime :=
          consecutiveTo_end_le endTime rest2 cur2 hcons2 hdur2
        have hteq : lifetime = endTime - t := by
          have h1 : t + lifetime ≤ endTime := le_trans hlt2 hend2
          have h2 : endTime ≤ t + lifetime := not_lt.1 ht2
          linarith
        constructor
        · simp [hteq]
        · intro ev hev
          rcases List.mem_singleton.1 hev with h
          rw [h]
          exact hl2

/-- C3 counterexample.  The epoch list `[-10, -5) ∪ [-5, 1)` is exactly
what `findEpochsDiscretizedToSamplePoints` produces for a protocol with
`start = -10`, `duration = 11` (so `endTime = 1 > 0`) and a stimulus step
at `t = -5`; the draw stream is non-negative (as real `mt19937`-derived
draws are).  The produced chain's first event has duration `-3 < 0`: the
chain clock starts at 0 while epoch boundaries are in absolute time, so a
negative time origin yields negative dwell durations (the total still sums
to `endTime`). -/
theorem monteCarlo_negative_duration_counterexample :
    (0 : ℚ) < 1
    ∧ ([(⟨-10, 5, fun _ _ => -1⟩ : MCEpoch), ⟨-5, 6, fun _ _ => -1⟩] ≠ [])
    ∧ monteCarloChain 1 (1 / 1000000) (fun k => if k = 0 then 0 else 2) 1 (fun _ => 1)
        [⟨-10, 5, fun _ _ => -1⟩, ⟨-5, 6, fun _ _ => -1⟩] 6
      = some [⟨0, -3⟩, ⟨0, 2⟩, ⟨0, 2⟩]
    ∧ ¬(0 : ℚ) ≤ (-3 : ℚ) := by
  refine ⟨by norm_num, by simp, ?_, by norm_num⟩
  norm_num [monteCarloChain, pickStartState, pickStartStateAux, mcChainAux, mcTruncate,
    selectNextState, selectNextStateAux]

/-- C3 amended.  For every event chain `monteCarloSimulation` produces
from a non-empty, consecutive epoch list whose last epoch ends at
`endTime` and whose durations are non-negative (the shape
`findEpochsDiscretizedToSamplePoints` yields), with `endTime > 0`,
non-negative draws, and — the amendment the counterexample forces — a
non-negative time origin (`0 ≤ first epoch start`): the event durations
sum exactly to `endTime` and every event duration is non-negative. -/
theorem monteCarloChain_durations (endTime ε : ℚ) (ω : ℕ → ℚ) (S : ℕ) (p0 : ℕ → ℚ)
    (e : MCEpoch) (rest : List MCEpoch) (fuel : ℕ) (c : List MCEvent)
    (hrun : monteCarloChain endTime ε ω S p0 (e :: rest) fuel = some c)
    (hω : ∀ m, 0 ≤ ω m)
    (hET : 0 < endTime)
    (hstart : 0 ≤ e.start)
    (hcons : ConsecutiveTo endTime (e :: rest))
    (hdur : ∀ x ∈ e :: rest, 0 ≤ x.duration) :
    (c.map MCEvent.duration).sum = endTime ∧ ∀ ev ∈ c, 0 ≤ ev.duration := by
  rw [monteCarloChain] at hrun
  have hspec := mcChainAux_spec endTime ε ω S hω fuel 0
    (pickStartState p0 S (ω 0)) e rest 1 c hrun le_rfl hET
    (by have := hdur e (by simp); linarith) hcons hdur
  rcases hspec with ⟨hsum, hnn⟩
  rw [sub_zero] at hsum
  exact ⟨hsum, hnn⟩

/-- Witness for the amended C3 on a single absorbing epoch `[0, 1)`. -/
theorem monteCarloChain_durations_witness :
    monteCarloChain 1 (1 / 1000000) (fun _ => 2) 1 (fun _ => 1)
        [(⟨0, 1, fun _ _ => -1⟩ : MCEpoch)] 2 = some [⟨0, 1⟩]
    ∧ (∀ m : ℕ, (0 : ℚ) ≤ (fun _ => (2 : ℚ)) m)
    ∧ (0 : ℚ) < 1
    ∧ (0 : ℚ) ≤ (MCEpoch.mk 0 1 (fun _ _ => -1)).start
    ∧ ConsecutiveTo 1 [⟨0, 1, fun _ _ => -1⟩]
    ∧ (∀ x ∈ [(⟨0, 1, fun _ _ => -1⟩ : MCEpoch)], (0 : ℚ) ≤ x.duration)
    ∧ (([(⟨0, 1⟩ : MCEvent)].map MCEvent.duration).sum = 1
        ∧ ∀ ev ∈ [(⟨0, 1⟩ : MCEvent)], 0 ≤ ev.duration) := by
  have hrun : monteCarloChain 1 (1 / 1000000) (fun _ => 2) 1 (fun _ => 1)
      [(⟨0, 1, fun _ _ => -1⟩ : MCEpoch)] 2 = some [⟨0, 1⟩] := by
    norm_num [monteCarloChain, pickStartState, pickStartStateAux, mcChainAux, mcTruncate,
      selectNextState, selectNextStateAux]
  refine ⟨hrun, by norm_num, by norm_num, by norm_num, ?_, ?_, ?_⟩
  · show (0 : ℚ) + 1 = 1
    norm_num
  · intro x hx
    rcases List.mem_singleton.1 hx with h
    rw [h]
    norm_num
  · exact monteCarloChain_durations 1 (1 / 1000000) (fun _ => 2) 1 (fun _ => 1)
      ⟨0, 1, fun _ _ => -1⟩ [] 2 [⟨0, 1⟩] hrun (by norm_num) (by norm_num) (by norm_num)
      (by show (0 : ℚ) + 1 = 1; norm_num)
      (by intro x hx; rcases List.mem_singleton.1 hx with h; rw [h]; norm_num)

theorem addTo_apply_ne {P : ℕ → ℕ → ℚ} {t s : ℕ} {v : ℚ} {r c : ℕ}
    (h : ¬(r = t ∧ c = s)) : addTo P t s v r c = P r c :=
  if_neg h

theorem addTo_le (P : ℕ → ℕ → ℚ) (t s : ℕ) (v : ℚ) (hv : 0 ≤ v) :
    ∀ r c, P r c ≤ addTo P t s v r c := by
  intro r c
  unfold addTo
  split
  · linarith
  · exact le_rfl

theorem rowSum_addTo_self (S : ℕ) (P : ℕ → ℕ → ℚ) (t s : ℕ) (v : ℚ) (hs : s < S) :
    rowSum S (addTo P t s v) t = rowSum S P t + v := by
  unfold rowSum addTo
  have hcongr : ∀ c ∈ Finset.range S,
      (if t = t ∧ c = s then P t c + v else P t c) = P t c + (if c = s then v else 0) := by
    intro c _
    by_cases h : c = s
    · rw [if_pos ⟨rfl, h⟩, if_pos h]
    · rw [if_neg (by tauto), if_neg h]
      ring
  rw [Finset.sum_congr rfl hcongr, Finset.sum_add_distrib]
  congr 1
  rw [Finset.sum_ite_eq' (Finset.range S) s (fun _ => v)]
  rw [if_pos (Finset.mem_range.2 hs)]

theorem rowSum_addTo_ne (S : ℕ) (P : ℕ → ℕ → ℚ) (t s : ℕ) (v : ℚ) (r : ℕ)
    (hr : r ≠ t) : rowSum S (addTo P t s v) r = rowSum S P r := by
  unfold rowSum
  refine Finset.sum_congr rfl ?_
  intro c _
  exact addTo_apply_ne (by tauto)

theorem time_mono_le (time : ℕ → ℚ) (N : ℕ)
    (hmono : ∀ i, i + 1 < N → time i < time (i + 1)) :
    ∀ i j, i ≤ j → j < N → time i ≤ time j := by
  intro i j
  induction j with
  | zero =>
    intro hij _
    have h0 : i = 0 := by omega
    rw [h0]
  | succ j ih =>
    intro hij hj
    rcases Nat.lt_or_ge i (j + 1) with h | h
    · exact le_trans (ih (by omega) (by omega)) (le_of_lt (hmono j hj))
    · have h1 : i = j + 1 := by omega
      rw [h1]

theorem ss_le_se (time : ℕ → ℚ) (N : ℕ) (endTime : ℚ)
    (hmono : ∀ i, i + 1 < N → time i < time (i + 1))
    (hlast : time (N - 1) ≤ endTime) :
    ∀ t, t < N → time t ≤ sampleIntervalEnd time N endTime t := by
  intro t ht
  unfold sampleIntervalEnd
  split
  · exact le_of_lt (hmono t (by assumption))
  · have h1 : t = N - 1 := by omega
    rw [h1]
    exact hlast

theorem se_le_endTime (time : ℕ → ℚ) (N : ℕ) (endTime : ℚ)
    (hmono : ∀ i, i + 1 < N → time i < time (i + 1))
    (hlast : time (N - 1) ≤ endTime) :
    ∀ t, t < N → sampleIntervalEnd time N endTime t ≤ endTime := by
  intro t ht
  unfold sampleIntervalEnd
  split
  · exact le_trans (time_mono_le time N hmono (t + 1) (N - 1) (by omega) (by omega)) hlast
  · exact le_rfl

theorem rowAmt_bounds (time : ℕ → ℚ) (N : ℕ) (endTime : ℚ) (t : ℕ) (es : ℚ)
    (hes : es ≤ sampleIntervalEnd time N endTime t) :
    0 ≤ rowAmt time N endTime t es ∧ rowAmt time N endTime t es ≤ 1 := by
  unfold rowAmt
  split
  · rename_i h
    constructor
    · apply div_nonneg
      · rw [sub_nonneg, max_le_iff]
        exact ⟨hes, le_of_lt h⟩
      · linarith
    · rw [div_le_one (by linarith)]
      have := le_max_right es (time t)
      linarith
  · norm_num

theorem rowAmt_of_le (time : ℕ → ℚ) (N : ℕ) (endTime : ℚ) (t : ℕ) (es : ℚ)
    (hes : es ≤ time t) : rowAmt time N endTime t es = 1 := by
  unfold rowAmt
  split
  · rename_i h
    rw [max_eq_right hes, div_self (by linarith)]
  · rfl

theorem sampleChainAux_stop (time : ℕ → ℚ) (N : ℕ) (endTime : ℚ)
    (P : ℕ → ℕ → ℚ) (t : ℕ) (es : ℚ) (evs : List MCEvent) (h : N ≤ t) :
    sampleChainAux time N endTime P t es evs = P := by
  cases evs with
  | nil => rw [sampleChainAux]
  | cons ev rest =>
    rw [sampleChainAux]
    rw [if_neg (by omega)]

theorem sampleChainAux_spec (time : ℕ → ℚ) (N : ℕ) (endTime : ℚ) (S : ℕ)
    (hmono : ∀ i, i + 1 < N → time i < time (i + 1))
    (hlast : time (N - 1) ≤ endTime) :
    ∀ m : ℕ, ∀ (evs : List MCEvent) (t : ℕ) (es : ℚ) (P : ℕ → ℕ → ℚ),
      evs.length + (N - t) ≤ m →
      evs ≠ [] → t < N →
      es ≤ sampleIntervalEnd time N endTime t →
      (∀ ev0 : MCEvent, evs.head? = some ev0 → time t ≤ es + ev0.duration) →
      es + (evs.map MCEvent.duration).sum = endTime →
      (∀ ev ∈ evs, 0 ≤ ev.duration) →
      (∀ ev ∈ evs, ev.state < S) →
      (∀ r c, P r c ≤ sampleChainAux time N endTime P t es evs r c)
      ∧ (∀ r c, r < t ∨ N ≤ r → sampleChainAux time N endTime P t es evs r c = P r c)
      ∧ (∀ r c, S ≤ c → sampleChainAux time N endTime P t es evs r c = P r c)
      ∧ (∀ r, t < r → r < N →
          rowSum S (sampleChainAux time N endTime P t es evs) r = rowSum S P r + 1)
      ∧ rowSum S (sampleChainAux time N endTime P t es evs) t
          = rowSum S P t + rowAmt time N endTime t es := by
  intro m
  induction m with
  | zero =>
    intro evs t es P hm _ ht
    exact absurd hm (by omega)
  | succ m ih =>
    intro evs t es P hm hne ht hH1 hH2 hH3 hdur hstate
    match evs, hne with
    | ev :: rest, _ =>
    have hse : time t ≤ sampleIntervalEnd time N endTime t :=
      ss_le_se time N endTime hmono hlast t ht
    have hseE : sampleIntervalEnd time N endTime t ≤ endTime :=
      se_le_endTime time N endTime hmono hlast t ht
    have hsev : ev.state < S := hstate ev (by simp)
    have hdev : 0 ≤ ev.duration := hdur ev (by simp)
    have hH2h : time t ≤ es + ev.duration := hH2 ev rfl
    by_cases hb1 : es ≤ time t ∧ es + ev.duration ≥ sampleIntervalEnd time N endTime t
    · -- event covers the entire sample interval
      have hunfold : sampleChainAux time N endTime P t es (ev :: rest)
          = sampleChainAux time N endTime (addTo P t ev.state 1) (t + 1) es (ev :: rest) := by
        rw [sampleChainAux, if_pos ht]
        dsimp only
        rw [if_pos hb1]
      rw [hunfold]
      have hPle := addTo_le P t ev.state 1 (by norm_num)
      by_cases hth : t + 1 < N
      · have hses : sampleIntervalEnd time N endTime t = time (t + 1) := by
          unfold sampleIntervalEnd
          rw [if_pos hth]
        have hrec := ih (ev :: rest) (t + 1) es (addTo P t ev.state 1)
          (by simp at hm ⊢; omega) (by simp) hth
          (by
            have h1 : time (t + 1) ≤ sampleIntervalEnd time N endTime (t + 1) :=
              ss_le_se time N endTime hmono hlast (t + 1) hth
            have h2 : time t ≤ time (t + 1) := le_of_lt (hmono t hth)
            have h3 := hb1.1
            linarith)
          (by intro ev0 h0; rw [List.head?_cons, Option.some_inj] at h0; rw [← h0]
              rw [← hses]; exact hb1.2)
          hH3 hdur hstate
        rcases hrec with ⟨ih1, ih2, ih3, ih4, ih5⟩
        refine ⟨?_, ?_, ?_, ?_, ?_⟩
        · intro r c
          exact le_trans (hPle r c) (ih1 r c)
        · intro r c hr
          rw [ih2 r c (by omega), addTo_apply_ne (by omega)]
        · intro r c hc
          rw [ih3 r c hc, addTo_apply_ne (by intro hand; omega)]
        · intro r hr1 hr2
          rcases Nat.lt_or_ge (t + 1) r with h | h
          · rw [ih4 r h hr2, rowSum_addTo_ne S P t ev.state 1 r (by omega)]
          · have hrt : r = t + 1 := by omega
            subst hrt
            rw [ih5, rowSum_addTo_ne S P t ev.state 1 (t + 1) (by omega)]
            rw [rowAmt_of_le time N endTime (t + 1) es
              (by rw [← hses]; exact le_trans hb1.1 hse)]
        · have hsum : rowSum S (sampleChainAux time N endTime (addTo P t ev.state 1)
              (t + 1) es (ev :: rest)) t = rowSum S (addTo P t ev.state 1) t := by
            unfold rowSum
            exact Finset.sum_congr rfl (fun c _ => ih2 t c (Or.inl (by omega)))
          rw [hsum, rowSum_addTo_self S P t ev.state 1 hsev,
            rowAmt_of_le time N endTime t es hb1.1]
      · rw [sampleChainAux_stop time N endTime _ (t + 1) es (ev :: rest) (by omega)]
        refine ⟨hPle, ?_, ?_, ?_, ?_⟩
        · intro r c hr
          exact addTo_apply_ne (by omega)
        · intro r c hc
          exact addTo_apply_ne (by intro hand; omega)
        · intro r hr1 hr2
          omega
        · rw [rowSum_addTo_self S P t ev.state 1 hsev,
            rowAmt_of_le time N endTime t es hb1.1]
    · by_cases hb2 : es ≤ time t
      · -- event stopped mid sample interval
        have hlt : es + ev.duration < sampleIntervalEnd time N endTime t := by
          by_contra hcon
          exact hb1 ⟨hb2, not_lt.1 hcon⟩
        have hunfold : sampleChainAux time N endTime P t es (ev :: rest)
            = sampleChainAux time N endTime
                (addTo P t ev.state ((es + ev.duration - time t)
                  / (sampleIntervalEnd time N endTime t - time t)))
                t (es + ev.duration) rest := by
          rw [sampleChainAux, if_pos ht]
          dsimp only
          rw [if_neg hb1, if_pos hb2]
        rw [hunfold]
        have hsipos : 0 < sampleIntervalEnd time N endTime t - time t := by
          have := hH2h
          linarith
        have hvpos : 0 ≤ (es + ev.duration - time t)
            / (sampleIntervalEnd time N endTime t - time t) := by
          apply div_nonneg
          · linarith
          · linarith
        have hPle := addTo_le P t ev.state _ hvpos
        have hrne : rest ≠ [] := by
          intro hcon
          subst hcon
          simp at hH3
          linarith
        have hrec := ih rest t (es + ev.duration)
          (addTo P t ev.state ((es + ev.duration - time t)
            / (sampleIntervalEnd time N endTime t - time t)))
          (by simp at hm ⊢; omega) hrne ht (le_of_lt hlt)
          (by
            intro ev0 h0
            have hd0 : 0 ≤ ev0.duration := by
              apply hdur
              exact List.mem_cons_of_mem ev (List.mem_of_mem_head? h0)
            linarith)
          (by simp at hH3 ⊢; linarith)
          (fun x hx => hdur x (List.mem_cons_of_mem ev hx))
          (fun x hx => hstate x (List.mem_cons_of_mem ev hx))
        rcases hrec with ⟨ih1, ih2, ih3, ih4, ih5⟩
        refine ⟨?_, ?_, ?_, ?_, ?_⟩
        · intro r c
          exact le_trans (hPle r c) (ih1 r c)
        · intro r c hr
          rw [ih2 r c hr, addTo_apply_ne (by omega)]
        · intro r c hc
          rw [ih3 r c hc, addTo_apply_ne (by intro hand; omega)]
        · intro r hr1 hr2
          rw [ih4 r hr1 hr2, rowSum_addTo_ne S P t ev.state _ r (by omega)]
        · rw [ih5, rowSum_addTo_self S P t ev.state _ hsev]
          have hamt1 : rowAmt time N endTime t (es + ev.duration)
              = (sampleIntervalEnd time N endTime t - (es + ev.duration))
                / (sampleIntervalEnd time N endTime t - time t) := by
            unfold rowAmt
            rw [if_pos (by linarith)]
            rw [max_eq_left (by linarith)]
          have hamt2 : rowAmt time N endTime t es = (sampleIntervalEnd time N endTime t
              - time t) / (sampleIntervalEnd time N endTime t - time t) := by
            unfold rowAmt
            rw [if_pos (by linarith)]
            rw [max_eq_right hb2]
          have hne0 : sampleIntervalEnd time N endTime t - time t ≠ 0 := ne_of_gt hsipos
          rw [hamt1, hamt2]
          field_simp
          ring
      · -- event started mid sample interval (and possibly also stopped there)
        have hgt : time t < es := not_le.1 hb2
        have hsipos : 0 < sampleIntervalEnd time N endTime t - time t := by
          linarith [hH1]
        by_cases hb3 : es + ev.duration ≥ sampleIntervalEnd time N endTime t
        · have hunfold : sampleChainAux time N endTime P t es (ev :: rest)
              = sampleChainAux time N endTime
                  (addTo P t ev.state ((sampleIntervalEnd time N endTime t - es)
                    / (sampleIntervalEnd time N endTime t - time t)))
                  (t + 1) es (ev :: rest) := by
            rw [sampleChainAux, if_pos ht]
            dsimp only
            rw [if_neg hb1, if_neg hb2, if_pos hb3]
          rw [hunfold]
          have hvpos : 0 ≤ (sampleIntervalEnd time N endTime t - es)
              / (sampleIntervalEnd time N endTime t - time t) := by
            apply div_nonneg
            · linarith [hH1]
            · linarith
          have hPle := addTo_le P t ev.state _ hvpos
          have hamt : rowAmt time N endTime t es = (sampleIntervalEnd time N endTime t - es)
              / (sampleIntervalEnd time N endTime t - time t) := by
            unfold rowAmt
            rw [if_pos (by linarith)]
            rw [max_eq_left (le_of_lt hgt)]
          by_cases hth : t + 1 < N
          · have hses : sampleIntervalEnd time N endTime t = time (t + 1) := by
              unfold sampleIntervalEnd
              rw [if_pos hth]
            have hrec := ih (ev :: rest) (t + 1) es
              (addTo P t ev.state ((sampleIntervalEnd time N endTime t - es)
                / (sampleIntervalEnd time N endTime t - time t)))
              (by simp at hm ⊢; omega) (by simp) hth
              (by
                have h1 : time (t + 1) ≤ sampleIntervalEnd time N endTime (t + 1) :=
                  ss_le_se time N endTime hmono hlast (t + 1) hth
                rw [hses] at hH1
                linarith)
              (by intro ev0 h0; rw [List.head?_cons, Option.some_inj] at h0; rw [← h0]
                  rw [← hses]; exact hb3)
              hH3 hdur hstate
            rcases hrec with ⟨ih1, ih2, ih3, ih4, ih5⟩
            refine ⟨?_, ?_, ?_, ?_, ?_⟩
            · intro r c
              exact le_trans (hPle r c) (ih1 r c)
            · intro r c hr
              rw [ih2 r c (by omega), addTo_apply_ne (by omega)]
            · intro r c hc
              rw [ih3 r c hc, addTo_apply_ne (by intro hand; omega)]
            · intro r hr1 hr2
              rcases Nat.lt_or_ge (t + 1) r with h | h
              · rw [ih4 r h hr2, rowSum_addTo_ne S P t ev.state _ r (by omega)]
              · have hrt : r = t + 1 := by omega
                subst hrt
                rw [ih5, rowSum_addTo_ne S P t ev.state _ (t + 1) (by omega)]
                rw [rowAmt_of_le time N endTime (t + 1) es (by rw [← hses]; exact hH1)]
            · have hsum : rowSum S (sampleChainAux time N endTime
                  (addTo P t ev.state ((sampleIntervalEnd time N endTime t - es)
                    / (sampleIntervalEnd time N endTime t - time t)))
                  (t + 1) es (ev :: rest)) t = rowSum S (addTo P t ev.state
                    ((sampleIntervalEnd time N endTime t - es)
                      / (sampleIntervalEnd time N endTime t - time t))) t := by
                unfold rowSum
                exact Finset.sum_congr rfl (fun c _ => ih2 t c (Or.inl (by omega)))
              rw [hsum, rowSum_addTo_self S P t ev.state _ hsev, hamt]
          · rw [sampleChainAux_stop time N endTime _ (t + 1) es (ev :: rest) (by omega)]
            refine ⟨hPle, ?_, ?_, ?_, ?_⟩
            · intro r c hr
              exact addTo_apply_ne (by omega)
            · intro r c hc
              exact addTo_apply_ne (by intro hand; omega)
            · intro r hr1 hr2
              omega
            · rw [rowSum_addTo_self S P t ev.state _ hsev, hamt]
        · -- event started and stopped mid sample interval
          have hlt : es + ev.duration < sampleIntervalEnd time N endTime t := not_le.1 hb3
          have hunfold : sampleChainAux time N endTime P t es (ev :: rest)
              = sampleChainAux time N endTime
                  (addTo P t ev.state (ev.duration
                    / (sampleIntervalEnd time N endTime t - time t)))
                  t (es + ev.duration) rest := by
            rw [sampleChainAux, if_pos ht]
            dsimp only
            rw [if_neg hb1, if_neg hb2, if_neg hb3]
          rw [hunfold]
          have hvpos : 0 ≤ ev.duration / (sampleIntervalEnd time N endTime t - time t) := by
            apply div_nonneg
            · exact hdev
            · linarith
          have hPle := addTo_le P t ev.state _ hvpos
          have hrne : rest ≠ [] := by
            intro hcon
            subst hcon
            simp at hH3
            linarith
          have hrec := ih rest t (es + ev.duration)
            (addTo P t ev.state (ev.duration
              / (sampleIntervalEnd time N endTime t - time t)))
            (by simp at hm ⊢; omega) hrne ht (le_of_lt hlt)
            (by
              intro ev0 h0
              have hd0 : 0 ≤ ev0.duration := by
                apply hdur
                exact List.mem_cons_of_mem ev (List.mem_of_mem_head? h0)
              linarith)
            (by simp at hH3 ⊢; linarith)
            (fun x hx => hdur x (List.mem_cons_of_mem ev hx))
            (fun x hx => hstate x (List.mem_cons_of_mem ev hx))
          rcases hrec with ⟨ih1, ih2, ih3, ih4, ih5⟩
          refine ⟨?_, ?_, ?_, ?_, ?_⟩
          · intro r c
            exact le_trans (hPle r c) (ih1 r c)
          · intro r c hr
            rw [ih2 r c hr, addTo_apply_ne (by omega)]
          · intro r c hc
            rw [ih3 r c hc, addTo_apply_ne (by intro hand; omega)]
          · intro r hr1 hr2
            rw [ih4 r hr1 hr2, rowSum_addTo_ne S P t ev.state _ r (by omega)]
          · rw [ih5, rowSum_addTo_self S P t ev.state _ hsev]
            have hamt1 : rowAmt time N endTime t (es + ev.duration)
                = (sampleIntervalEnd time N endTime t - (es + ev.duration))
                  / (sampleIntervalEnd time N endTime t - time t) := by
              unfold rowAmt
              rw [if_pos (by linarith)]
              rw [max_eq_left (by linarith)]
            have hamt2 : rowAmt time N endTime t es
                = (sampleIntervalEnd time N endTime t - es)
                  / (sampleIntervalEnd time N endTime t - time t) := by
              unfold rowAmt
              rw [if_pos (by linarith)]
              rw [max_eq_left (le_of_lt hgt)]
            have hne0 : sampleIntervalEnd time N endTime t - time t ≠ 0 := ne_of_gt hsipos
            rw [hamt1, hamt2]
            field_simp
            ring

theorem sampleChain_full (time : ℕ → ℚ) (N : ℕ) (endTime : ℚ) (S : ℕ)
    (h0 : time 0 = 0) (hN : 1 ≤ N)
    (hmono : ∀ i, i + 1 < N → time i < time (i + 1))
    (hlast : time (N - 1) ≤ endTime)
    (ch : List MCEvent) (hne : ch ≠ [])
    (hdur : ∀ ev ∈ ch, 0 ≤ ev.duration)
    (hstate : ∀ ev ∈ ch, ev.state < S)
    (hsum : (ch.map MCEvent.duration).sum = endTime) (P : ℕ → ℕ → ℚ) :
    (∀ r c, P r c ≤ sampleChainAux time N endTime P 0 0 ch r c)
    ∧ (∀ r c, S ≤ c → sampleChainAux time N endTime P 0 0 ch r c = P r c)
    ∧ (∀ r, r < N → rowSum S (sampleChainAux time N endTime P 0 0 ch) r
        = rowSum S P r + 1) := by
  have hspec := sampleChainAux_spec time N endTime S hmono hlast
    (ch.length + N) ch 0 0 P (by omega) hne (by omega)
    (by rw [← h0]; exact ss_le_se time N endTime hmono hlast 0 (by omega))
    (by
      intro ev0 h0m
      have : 0 ≤ ev0.duration := hdur ev0 (List.mem_of_mem_head? h0m)
      rw [h0]
      linarith)
    (by rw [zero_add]; exact hsum)
    hdur hstate
  rcases hspec with ⟨h1, h2, h3, h4, h5⟩
  refine ⟨h1, h3, ?_⟩
  intro r hr
  rcases Nat.eq_zero_or_pos r with h | h
  · subst h
    rw [h5, rowAmt_of_le time N endTime 0 0 (by rw [h0])]
  · exact h4 r h hr

theorem foldChains_spec (time : ℕ → ℚ) (N : ℕ) (endTime : ℚ) (S : ℕ)
    (h0 : time 0 = 0) (hN : 1 ≤ N)
    (hmono : ∀ i, i + 1 < N → time i < time (i + 1))
    (hlast : time (N - 1) ≤ endTime) :
    ∀ (chains : List (List MCEvent)),
      (∀ ch ∈ chains, ch ≠ [] ∧ (∀ ev ∈ ch, 0 ≤ ev.duration)
        ∧ (∀ ev ∈ ch, ev.state < S) ∧ (ch.map MCEvent.duration).sum = endTime) →
      ∀ P : ℕ → ℕ → ℚ,
      (∀ r c, P r c
        ≤ chains.foldl (fun Q c => sampleChainAux time N endTime Q 0 0 c) P r c)
      ∧ (∀ r c, S ≤ c →
          chains.foldl (fun Q c => sampleChainAux time N endTime Q 0 0 c) P r c = P r c)
      ∧ (∀ r, r < N →
          rowSum S (chains.foldl (fun Q c => sampleChainAux time N endTime Q 0 0 c) P) r
            = rowSum S P r + chains.length) := by
  intro chains
  induction chains with
  | nil =>
    intro _ P
    exact ⟨fun r c => le_rfl, fun r c _ => rfl, fun r _ => by simp⟩
  | cons ch rest ih =>
    intro hch P
    rcases hch ch (by simp) with ⟨hne, hdur, hstate, hsum⟩
    have hfull := sampleChain_full time N endTime S h0 hN hmono hlast ch hne hdur hstate hsum P
    rcases hfull with ⟨f1, f2, f3⟩
    have hrest := ih (fun c hc => hch c (List.mem_cons_of_mem ch hc))
      (sampleChainAux time N endTime P 0 0 ch)
    rcases hrest with ⟨g1, g2, g3⟩
    refine ⟨?_, ?_, ?_⟩
    · intro r c
      exact le_trans (f1 r c) (g1 r c)
    · intro r c hc
      rw [List.foldl_cons, g2 r c hc, f2 r c hc]
    · intro r hr
      rw [List.foldl_cons, g3 r hr, f3 r hr, List.length_cons]
      push_cast
      ring

/-- C4 counterexample.  The chain `[(0, 2), (1, 5)]` has non-negative
durations summing to `endTime = 7`, and the chain list is non-empty; but
on the sample grid `time = [5, 6]` (a legitimate simulation grid whose
origin is not 0) `getProbabilityFromEventChains` produces
`P(0, 0) = -3 ∉ [0, 1]` and row 0 sums to `-2 ≠ 1`: the reconstruction
implicitly assumes the chain clock and the grid share origin 0. -/
theorem getProbability_counterexample :
    ([[(⟨0, 2⟩ : MCEvent), ⟨1, 5⟩]] ≠ ([] : List (List MCEvent)))
    ∧ (∀ ev ∈ [(⟨0, 2⟩ : MCEvent), ⟨1, 5⟩], 0 ≤ ev.duration)
    ∧ (([(⟨0, 2⟩ : MCEvent), ⟨1, 5⟩].map MCEvent.duration).sum = 7)
    ∧ getProbabilityFromEventChains (fun i => 5 + (i : ℚ)) 2 7
        [[⟨0, 2⟩, ⟨1, 5⟩]] 0 0 = -3
    ∧ ¬((0 : ℚ) ≤ getProbabilityFromEventChains (fun i => 5 + (i : ℚ)) 2 7
        [[⟨0, 2⟩, ⟨1, 5⟩]] 0 0)
    ∧ (∑ c ∈ Finset.range 2, getProbabilityFromEventChains (fun i => 5 + (i : ℚ)) 2 7
        [[⟨0, 2⟩, ⟨1, 5⟩]] 0 c) ≠ 1 := by
  have hP : ∀ c : ℕ, getProbabilityFromEventChains (fun i => 5 + (i : ℚ)) 2 7
      [[⟨0, 2⟩, ⟨1, 5⟩]] 0 c = (if 0 = 0 ∧ c = 1 then (1 : ℚ) else 0)
        + (if 0 = 0 ∧ c = 0 then (-3 : ℚ) else 0) := by
    intro c
    rw [getProbabilityFromEventChains]
    dsimp only
    rw [List.foldl_cons, List.foldl_nil]
    rw [sampleChainAux]
    rw [if_pos (by norm_num)]
    dsimp only
    rw [if_neg (by norm_num [sampleIntervalEnd]), if_pos (by norm_num)]
    rw [sampleChainAux]
    rw [if_pos (by norm_num)]
    dsimp only
    rw [if_pos (by constructor <;> norm_num [sampleIntervalEnd])]
    rw [sampleChainAux]
    rw [if_pos (by norm_num)]
    dsimp only
    rw [if_pos (by constructor <;> norm_num [sampleIntervalEnd])]
    rw [sampleChainAux_stop _ _ _ _ _ _ _ (by norm_num)]
    norm_num [addTo, sampleIntervalEnd]
    split <;> split <;> norm_num
  refine ⟨by simp, ?_, by norm_num, ?_, ?_, ?_⟩
  · intro ev hev
    rcases List.mem_cons.1 hev with h | h
    · rw [h]; norm_num
    · rcases List.mem_singleton.1 h with h2
      rw [h2]; norm_num
  · rw [hP 0]; norm_num
  · rw [hP 0]; norm_num
  · rw [Finset.sum_range_succ, Finset.sum_range_one, hP 0, hP 1]
    norm_num

/-- C4 amended.  For every non-empty list of event chains whose events
have non-negative durations, states `< S` and total duration
`endTime > 0`, on a sample grid with `time[0] = 0` (the amendment the
counterexample forces: the chain clock starts at 0), strictly increasing
times and `time[N-1] ≤ endTime`, the reconstructed matrix
`getProbabilityFromEventChains` has every row of index `< N` summing to
exactly 1 and every entry in `[0, 1]`. -/
theorem getProbability_rows_sum_one (time : ℕ → ℚ) (N : ℕ) (endTime : ℚ) (S : ℕ)
    (chains : List (List MCEvent))
    (h0 : time 0 = 0) (hN : 1 ≤ N)
    (hmono : ∀ i, i + 1 < N → time i < time (i + 1))
    (hlast : time (N - 1) ≤ endTime)
    (hET : 0 < endTime)
    (hchne : chains ≠ [])
    (hdur : ∀ ch ∈ chains, ∀ ev ∈ ch, 0 ≤ ev.duration)
    (hstate : ∀ ch ∈ chains, ∀ ev ∈ ch, ev.state < S)
    (hsum : ∀ ch ∈ chains, (ch.map MCEvent.duration).sum = endTime) :
    (∀ r, r < N →
      ∑ c ∈ Finset.range S, getProbabilityFromEventChains time N endTime chains r c = 1)
    ∧ (∀ r c, r < N → c < S →
        0 ≤ getProbabilityFromEventChains time N endTime chains r c
        ∧ getProbabilityFromEventChains time N endTime chains r c ≤ 1) := by
  have hprops : ∀ ch ∈ chains, ch ≠ [] ∧ (∀ ev ∈ ch, 0 ≤ ev.duration)
      ∧ (∀ ev ∈ ch, ev.state < S) ∧ (ch.map MCEvent.duration).sum = endTime := by
    intro ch hc
    refine ⟨?_, hdur ch hc, hstate ch hc, hsum ch hc⟩
    intro hemp
    have := hsum ch hc
    rw [hemp] at this
    simp at this
    linarith
  have hfold := foldChains_spec time N endTime S h0 hN hmono hlast chains hprops
    (fun _ _ => 0)
  rcases hfold with ⟨g1, -, g3⟩
  have hlen : 0 < chains.length := List.length_pos.2 hchne
  have hlenQ : (0 : ℚ) < (chains.length : ℚ) := by exact_mod_cast hlen
  have hF : ∀ r, r < N → rowSum S
      (chains.foldl (fun Q c => sampleChainAux time N endTime Q 0 0 c) (fun _ _ => 0)) r
      = (chains.length : ℚ) := by
    intro r hr
    rw [g3 r hr]
    unfold rowSum
    simp
  have hF0 : ∀ r c, 0 ≤ chains.foldl (fun Q c => sampleChainAux time N endTime Q 0 0 c)
      (fun _ _ => 0) r c := fun r c => g1 r c
  constructor
  · intro r hr
    rw [show (∑ c ∈ Finset.range S,
        getProbabilityFromEventChains time N endTime chains r c)
      = (∑ c ∈ Finset.range S,
          chains.foldl (fun Q c => sampleChainAux time N endTime Q 0 0 c) (fun _ _ => 0) r c)
        / (chains.length : ℚ) from by
      rw [Finset.sum_div]
      exact Finset.sum_congr rfl (fun c _ => rfl)]
    rw [show (∑ c ∈ Finset.range S,
        chains.foldl (fun Q c => sampleChainAux time N endTime Q 0 0 c) (fun _ _ => 0) r c)
      = rowSum S (chains.foldl (fun Q c => sampleChainAux time N endTime Q 0 0 c)
          (fun _ _ => 0)) r from rfl]
    rw [hF r hr]
    exact div_self (ne_of_gt hlenQ)
  · intro r c hr hc
    constructor
    · exact div_nonneg (hF0 r c) (le_of_lt hlenQ)
    · rw [show getProbabilityFromEventChains time N endTime chains r c
        = chains.foldl (fun Q c => sampleChainAux time N endTime Q 0 0 c) (fun _ _ => 0) r c
          / (chains.length : ℚ) from rfl]
      rw [div_le_one hlenQ]
      calc chains.foldl (fun Q c => sampleChainAux time N endTime Q 0 0 c) (fun _ _ => 0) r c
          ≤ rowSum S (chains.foldl (fun Q c => sampleChainAux time N endTime Q 0 0 c)
            (fun _ _ => 0)) r := by
            unfold rowSum
            exact Finset.single_le_sum (f := fun c2 =>
              chains.foldl (fun Q c => sampleChainAux time N endTime Q 0 0 c)
                (fun _ _ => 0) r c2) (fun c2 _ => hF0 r c2) (Finset.mem_range.2 hc)
        _ = (chains.length : ℚ) := hF r hr

/-- Witness for the amended C4 on the grid `[0, 1]`, `endTime = 2`, one
single-event chain. -/
theorem getProbability_rows_sum_one_witness :
    ((fun i => (i : ℚ)) 0 = 0) ∧ 1 ≤ 2 ∧ (0 : ℚ) < 2
    ∧ ([[(⟨0, 2⟩ : MCEvent)]] ≠ ([] : List (List MCEvent)))
    ∧ ((∀ r, r < 2 → ∑ c ∈ Finset.range 1,
          getProbabilityFromEventChains (fun i => (i : ℚ)) 2 2 [[⟨0, 2⟩]] r c = 1)
      ∧ (∀ r c, r < 2 → c < 1 →
          0 ≤ getProbabilityFromEventChains (fun i => (i : ℚ)) 2 2 [[⟨0, 2⟩]] r c
          ∧ getProbabilityFromEventChains (fun i => (i : ℚ)) 2 2 [[⟨0, 2⟩]] r c ≤ 1)) :=
  ⟨by norm_num, by norm_num, by norm_num, by simp,
    getProbability_rows_sum_one (fun i => (i : ℚ)) 2 2 1 [[⟨0, 2⟩]]
      (by norm_num) (by norm_num)
      (by intro i h; have h2 : i = 0 := by omega
          subst h2; norm_num)
      (by norm_num) (by norm_num) (by simp)
      (by intro ch hch ev hev
          rcases List.mem_singleton.1 hch with h
          subst h
          rcases List.mem_singleton.1 hev with h2
          subst h2
          norm_num)
      (by intro ch hch ev hev
          rcases List.mem_singleton.1 hch with h
          subst h
          rcases List.mem_singleton.1 hev with h2
          subst h2
          norm_num)
      (by intro ch hch
          rcases List.mem_singleton.1 hch with h
          subst h
          norm_num)⟩

/-- Witness for C1 at a concrete three-sample simulation with one stimulus
channel stepping at sample 2. -/
theorem findEpochs_partition_witness :
    1 ≤ 3
    ∧ (((findEpochsDiscretizedToSamplePoints (fun i => (i : ℚ)) 3 3
          [("v", fun i => if i < 2 then 0 else 1)]).map Epoch.numPts).sum = 3
      ∧ ((findEpochsDiscretizedToSamplePoints (fun i => (i : ℚ)) 3 3
          [("v", fun i => if i < 2 then 0 else 1)]).map Epoch.duration).sum
          = 3 - (fun i => (i : ℚ)) 0
      ∧ ((findEpochsDiscretizedToSamplePoints (fun i => (i : ℚ)) 3 3
          [("v", fun i => if i < 2 then 0 else 1)]).head?.map Epoch.firstPt = some 0)
      ∧ (findEpochsDiscretizedToSamplePoints (fun i => (i : ℚ)) 3 3
          [("v", fun i => if i < 2 then 0 else 1)]).Chain'
          (fun a b => b.firstPt = a.firstPt + a.numPts)) :=
  ⟨by decide,
    findEpochs_partition (fun i => (i : ℚ)) 3 3
      [("v", fun i => if i < 2 then 0 else 1)] (by decide)⟩

theorem matInv_eq_inv {n : ℕ} (A : Matrix (Fin n) (Fin n) ℚ) : matInv A = A⁻¹ := by
  rw [Matrix.inv_def, Ring.inverse_eq_inv']
  rfl

theorem augOnes_mul_transpose_apply {n : ℕ} (Q : Matrix (Fin n) (Fin n) ℚ) (i k : Fin n) :
    (augOnes n Q * (augOnes n Q).transpose) i k = (∑ j, Q i j * Q k j) + 1 := by
  rw [Matrix.mul_apply, Fin.sum_univ_castSucc]
  simp only [Matrix.transpose_apply, augOnes, Matrix.of_apply, Fin.coe_castSucc, Fin.is_lt,
    dif_pos, Fin.val_last, lt_irrefl, dif_neg, dite_true, dite_false, Fin.eta, one_mul, mul_one]

theorem kerOnes_mulVec {n : ℕ} (Q : Matrix (Fin n) (Fin n) ℚ)
    (hrows : ∀ i, ∑ j, Q i j = 0) :
    (augOnes n Q).mulVec (kerOnes n) = 0 := by
  funext i
  simp only [Matrix.mulVec, Matrix.dotProduct, Pi.zero_apply]
  rw [Fin.sum_univ_castSucc]
  simp only [augOnes, Matrix.of_apply, kerOnes, Fin.coe_castSucc, Fin.is_lt, dif_pos, if_pos,
    Fin.val_last, lt_irrefl, dif_neg, if_neg, dite_true, dite_false, ite_true, ite_false,
    Fin.eta, mul_one, mul_zero, add_zero, one_mul]
  exact hrows i

theorem augOnes_mulVec_surjective {n : ℕ} (Q : Matrix (Fin n) (Fin n) ℚ)
    (hdet : (augOnes n Q * (augOnes n Q).transpose).det ≠ 0) :
    Function.Surjective ((augOnes n Q).mulVecLin) := by
  intro b
  refine ⟨(augOnes n Q).transpose.mulVec
    ((augOnes n Q * (augOnes n Q).transpose)⁻¹.mulVec b), ?_⟩
  rw [Matrix.mulVecLin_apply, Matrix.mulVec_mulVec, Matrix.mulVec_mulVec,
    Matrix.mul_nonsing_inv _ (isUnit_iff_ne_zero.mpr hdet), Matrix.one_mulVec]

theorem augOnes_ker_finrank {n : ℕ} (Q : Matrix (Fin n) (Fin n) ℚ)
    (hdet : (augOnes n Q * (augOnes n Q).transpose).det ≠ 0) :
    Module.finrank ℚ (LinearMap.ker (augOnes n Q).mulVecLin) = 1 := by
  have hsurj := augOnes_mulVec_surjective Q hdet
  have hr := LinearMap.finrank_range_add_finrank_ker ((augOnes n Q).mulVecLin)
  rw [LinearMap.range_eq_top.mpr hsurj, finrank_top, Module.finrank_pi, Module.finrank_pi,
    Fintype.card_fin, Fintype.card_fin] at hr
  omega

/-- C7. For every S x S rate matrix `Q` with zero row sums such that `M = S*Sᵀ`
formed from `S = [Q | 1]` is invertible, `equilibriumProbability Q` returns the
row vector `π = 1 · M⁻¹`, and this `π` satisfies `π·Q = 0` and `Σ π = 1`. -/
theorem equilibriumProbability_stationary (n : ℕ) (Q : Matrix (Fin n) (Fin n) ℚ)
    (hn : 0 < n)
    (hrows : ∀ i, ∑ j, Q i j = 0)
    (hdet : (augOnes n Q * (augOnes n Q).transpose).det ≠ 0) :
    equilibriumProbability Q
      = Matrix.vecMul (fun _ => (1 : ℚ)) (augOnes n Q * (augOnes n Q).transpose)⁻¹
    ∧ Matrix.vecMul (equilibriumProbability Q) Q = 0
    ∧ ∑ j, equilibriumProbability Q j = 1 := by
  have hformula : equilibriumProbability Q
      = Matrix.vecMul (fun _ => (1 : ℚ)) (augOnes n Q * (augOnes n Q).transpose)⁻¹ := by
    simp only [equilibriumProbability, matInv_eq_inv]
  set π := equilibriumProbability Q with hπdef
  have hπM : Matrix.vecMul π (augOnes n Q * (augOnes n Q).transpose) = fun _ => (1 : ℚ) := by
    rw [hformula, Matrix.vecMul_vecMul,
      Matrix.nonsing_inv_mul _ (isUnit_iff_ne_zero.mpr hdet), Matrix.vecMul_one]
  have hent : ∀ k, (∑ i, π i * ((∑ j, Q i j * Q k j) + 1)) = 1 := by
    intro k
    have h := congrFun hπM k
    simp only [Matrix.vecMul, Matrix.dotProduct, augOnes_mul_transpose_apply] at h
    exact h
  have hQzAux : ∀ k, (∑ i, π i * ((∑ j, Q i j * Q k j) + 1))
      = (∑ j, (∑ i, π i * Q i j) * Q k j) + ∑ i, π i := by
    intro k
    calc (∑ i, π i * ((∑ j, Q i j * Q k j) + 1))
        = (∑ i, ((∑ j, π i * Q i j * Q k j) + π i)) := by
          refine Finset.sum_congr rfl fun i _ => ?_
          rw [mul_add, mul_one, Finset.mul_sum]
          congr 1
          refine Finset.sum_congr rfl fun j _ => ?_
          ring
      _ = (∑ i, ∑ j, π i * Q i j * Q k j) + (∑ i, π i) := Finset.sum_add_distrib
      _ = (∑ j, ∑ i, π i * Q i j * Q k j) + (∑ i, π i) := by rw [Finset.sum_comm]
      _ = (∑ j, (∑ i, π i * Q i j) * Q k j) + ∑ i, π i := by
          congr 1
          refine Finset.sum_congr rfl fun j _ => ?_
          rw [Finset.sum_mul]
  have hQz : ∀ k, (∑ j, (∑ i, π i * Q i j) * Q k j) = 1 - ∑ i, π i := by
    intro k
    have h := hent k
    rw [hQzAux k] at h
    linarith
  have hzsum : (∑ j, ∑ i, π i * Q i j) = 0 := by
    rw [Finset.sum_comm]
    refine Finset.sum_eq_zero fun i _ => ?_
    rw [← Finset.mul_sum, hrows i, mul_zero]
  have hwker : (augOnes n Q).mulVec
      (fun j : Fin (n + 1) => if h : (j : ℕ) < n then (∑ i, π i * Q i ⟨j, h⟩) else (∑ i, π i) - 1) = 0 := by
    funext i
    simp only [Matrix.mulVec, Matrix.dotProduct, Pi.zero_apply]
    rw [Fin.sum_univ_castSucc]
    simp only [augOnes, Matrix.of_apply, Fin.coe_castSucc, Fin.is_lt, dif_pos, Fin.val_last,
      lt_irrefl, dif_neg, dite_true, dite_false, Fin.eta, one_mul]
    have hcomm : (∑ j, Q i j * (∑ i2, π i2 * Q i2 j))
        = ∑ j, (∑ i2, π i2 * Q i2 j) * Q i j :=
      Finset.sum_congr rfl fun j _ => mul_comm _ _
    rw [hcomm, hQz i]
    ring
  have hνmem : kerOnes n ∈ LinearMap.ker (augOnes n Q).mulVecLin := by
    rw [LinearMap.mem_ker, Matrix.mulVecLin_apply, kerOnes_mulVec Q hrows]
  have hwmem : (fun j : Fin (n + 1) => if h : (j : ℕ) < n then (∑ i, π i * Q i ⟨j, h⟩) else (∑ i, π i) - 1)
      ∈ LinearMap.ker (augOnes n Q).mulVecLin := by
    rw [LinearMap.mem_ker, Matrix.mulVecLin_apply, hwker]
  have hνne : (⟨kerOnes n, hνmem⟩ : LinearMap.ker (augOnes n Q).mulVecLin) ≠ 0 := by
    intro h
    have h0 := congrFun (congrArg Subtype.val h) ⟨0, Nat.succ_pos n⟩
    simp only [kerOnes, ZeroMemClass.coe_zero, Pi.zero_apply] at h0
    rw [if_pos (show ((⟨0, Nat.succ_pos n⟩ : Fin (n + 1)) : ℕ) < n from hn)] at h0
    exact one_ne_zero h0
  obtain ⟨c, hc⟩ := (finrank_eq_one_iff_of_nonzero'
      (⟨kerOnes n, hνmem⟩ : LinearMap.ker (augOnes n Q).mulVecLin) hνne).mp
      (augOnes_ker_finrank Q hdet) ⟨_, hwmem⟩
  have hcval := congrArg Subtype.val hc
  simp only [SetLike.val_smul] at hcval
  have hlast := congrFun hcval (Fin.last n)
  simp only [Pi.smul_apply, kerOnes, smul_eq_mul, Fin.val_last, lt_irrefl, if_false,
    dif_neg, dite_true, dite_false, ite_true, ite_false, mul_zero] at hlast
  have hα1 : (∑ i, π i) = 1 := by linarith
  have hzc : ∀ j : Fin n, (∑ i, π i * Q i j) = c := by
    intro j
    have h := congrFun hcval (Fin.castSucc j)
    simp only [Pi.smul_apply, kerOnes, smul_eq_mul, Fin.coe_castSucc, Fin.is_lt, if_true,
      dif_pos, dite_true, dite_false, ite_true, ite_false, Fin.eta, mul_one, if_pos] at h
    exact h.symm
  have hc0 : c = 0 := by
    have hs : (0 : ℚ) = (n : ℚ) * c := by
      calc (0 : ℚ) = ∑ j : Fin n, ∑ i, π i * Q i j := hzsum.symm
        _ = ∑ j : Fin n, c := Finset.sum_congr rfl fun j _ => hzc j
        _ = (n : ℚ) * c := by
            rw [Finset.sum_const, Finset.card_univ, Fintype.card_fin, nsmul_eq_mul]
    have hn' : (n : ℚ) ≠ 0 := Nat.cast_ne_zero.mpr (Nat.pos_iff_ne_zero.mp hn)
    rcases mul_eq_zero.mp hs.symm with h | h
    · exact absurd h hn'
    · exact h
  refine ⟨hformula, ?_, hα1⟩
  funext j
  simp only [Matrix.vecMul, Matrix.dotProduct, Pi.zero_apply]
  rw [hzc j]
  exact hc0

/-- Witness for C7: the two-state rate matrix `Q = [[-1, 1], [2, -2]]` has zero
row sums and invertible `S·Sᵀ` (determinant 18), and the theorem applies. -/
theorem equilibriumProbability_stationary_witness :
    (0 : ℕ) < 2
    ∧ (∀ i, ∑ j, (Matrix.of ![![(-1 : ℚ), 1], ![2, -2]]) i j = 0)
    ∧ (augOnes 2 (Matrix.of ![![(-1 : ℚ), 1], ![2, -2]])
        * (augOnes 2 (Matrix.of ![![(-1 : ℚ), 1], ![2, -2]])).transpose).det ≠ 0
    ∧ (equilibriumProbability (Matrix.of ![![(-1 : ℚ), 1], ![2, -2]])
        = Matrix.vecMul (fun _ => (1 : ℚ))
          (augOnes 2 (Matrix.of ![![(-1 : ℚ), 1], ![2, -2]])
            * (augOnes 2 (Matrix.of ![![(-1 : ℚ), 1], ![2, -2]])).transpose)⁻¹
      ∧ Matrix.vecMul (equilibriumProbability (Matrix.of ![![(-1 : ℚ), 1], ![2, -2]]))
          (Matrix.of ![![(-1 : ℚ), 1], ![2, -2]]) = 0
      ∧ ∑ j, equilibriumProbability (Matrix.of ![![(-1 : ℚ), 1], ![2, -2]]) j = 1) :=
  ⟨by norm_num,
   by intro i; fin_cases i <;> norm_num [Fin.sum_univ_two],
   by norm_num [augOnes, Matrix.det_fin_two, Matrix.mul_apply, Fin.sum_univ_succ,
       Fin.sum_univ_zero, Matrix.cons_val_zero, Matrix.cons_val_one, Matrix.head_cons],
   equilibriumProbability_stationary 2 (Matrix.of ![![(-1 : ℚ), 1], ![2, -2]])
     (by norm_num)
     (by intro i; fin_cases i <;> norm_num [Fin.sum_univ_two])
     (by norm_num [augOnes, Matrix.det_fin_two, Matrix.mul_apply, Fin.sum_univ_succ,
       Fin.sum_univ_zero, Matrix.cons_val_zero, Matrix.cons_val_one, Matrix.head_cons])⟩

theorem sum_map_set {α : Type} (f : α → ℚ) :
    ∀ (l : List α) (j : ℕ) (b : α), l[j]? = some b →
      ∀ a, ((l.set j a).map f).sum = (l.map f).sum - f b + f a
  | [], j, b, h, a => by simp at h
  | x :: xs, 0, b, h, a => by
    simp only [List.getElem?_cons_zero, Option.some_inj] at h
    subst h
    simp only [List.set, List.map_cons, List.sum_cons]
    ring
  | x :: xs, j + 1, b, h, a => by
    simp only [List.getElem?_cons_succ] at h
    simp only [List.set, List.map_cons, List.sum_cons]
    rw [sum_map_set f xs j b h a]
    ring

theorem refContribution_congr (stateNames : List String) (sim : Sim)
    (rdnew : List (List (String × RefData))) (v : ℕ) (name : String) (rd : RefData) :
    refContribution stateNames { sim with referenceData := rdnew } v name rd
      = refContribution stateNames sim v name rd := rfl

theorem refContribution_scale (stateNames : List String) (sim : Sim) (v : ℕ)
    (name : String) (rd : RefData) (k : ℚ) :
    refContribution stateNames sim v name { rd with weight := k * rd.weight }
      = k * refContribution stateNames sim v name rd := by
  rw [refContribution, refContribution]
  by_cases h1 : 0 < rd.numPts
  · rw [if_pos h1, if_pos h1]
    rcases hw : getSimulationWaveform stateNames name sim v with _ | ⟨y, nPts⟩
    · simp
    · dsimp only
      by_cases h2 : 0 < nPts
      · rw [if_pos h2, if_pos h2]
        ring
      · rw [if_neg h2, if_neg h2, mul_zero]
  · rw [if_neg h1, if_neg h1, mul_zero]

/-- C9. The protocol cost is linear in each reference curve's weight: a
per-simulation reference with `numPts > 0` and a found waveform contributes
`(Σ (sim_t − ref_t)² · simWeight_t) · refWeight`; scaling one reference's
weight by `k` changes the total cost by exactly `(k − 1)` times that
reference's contribution (all other contributions unchanged); and the summary
contribution `(Σ (y_t − ref_t)²) · refWeight` carries no per-sample weights. -/
theorem cost_linear_in_reference_weight
    (stateNames : List String) (simulations : List (List Sim)) (summaries : List Summary)
    (row col v j : ℕ) (simRow : List Sim) (sim : Sim)
    (lst : List (String × RefData)) (name : String) (rd : RefData) (k : ℚ)
    (hrow : simulations[row]? = some simRow)
    (hcol : simRow[col]? = some sim)
    (hv : sim.referenceData[v]? = some lst)
    (hj : lst[j]? = some (name, rd)) :
    (∀ (y : ℕ → ℚ) (nPts : ℕ), 0 < rd.numPts →
      getSimulationWaveform stateNames name sim v = some (y, nPts) → 0 < nPts →
      refContribution stateNames sim v name rd
        = (∑ t ∈ Finset.range rd.numPts.toNat,
            (y (rd.firstPt + t) - rd.waveform t) ^ 2 * sim.weight (rd.firstPt + t))
            * rd.weight)
    ∧ protocolCost stateNames
        (simulations.set row (simRow.set col
          { sim with referenceData :=
              sim.referenceData.set v (lst.set j (name, { rd with weight := k * rd.weight })) }))
        summaries
      = protocolCost stateNames simulations summaries
          + (k - 1) * refContribution stateNames sim v name rd
    ∧ (∀ (rowY : ℕ → ℚ) (srd : SummaryRefData), 0 < srd.numPts →
        summaryRefContribution rowY srd
          = (∑ t ∈ Finset.range srd.numPts.toNat,
              (rowY (srd.firstPt + t) - srd.waveform t) ^ 2) * srd.weight) := by
  refine ⟨?_, ?_, ?_⟩
  · intro y nPts h1 hw h2
    rw [refContribution, if_pos h1, hw]
    dsimp only
    rw [if_pos h2]
  · have hvlt : v < sim.referenceData.length := by
      by_contra hge
      rw [List.getElem?_eq_none (by omega)] at hv
      exact Option.noConfusion hv
    have hsim' : simCost stateNames
        { sim with referenceData :=
            sim.referenceData.set v (lst.set j (name, { rd with weight := k * rd.weight })) }
        = simCost stateNames sim + (k - 1) * refContribution stateNames sim v name rd := by
      rw [simCost, simCost]
      simp only [refContribution_congr, List.length_set]
      have hstep : ∀ v' ∈ Finset.range sim.referenceData.length,
          ((((sim.referenceData.set v
              (lst.set j (name, { rd with weight := k * rd.weight })))[v']?).getD []).map
            (fun kv => refContribution stateNames sim v' kv.1 kv.2)).sum
          = (((sim.referenceData[v']?).getD []).map
              (fun kv => refContribution stateNames sim v' kv.1 kv.2)).sum
            + (if v' = v then (k - 1) * refContribution stateNames sim v name rd else 0) := by
        intro v' _
        by_cases hcase : v' = v
        · subst hcase
          rw [List.getElem?_set_self (by omega), hv, if_pos rfl]
          simp only [Option.getD_some]
          rw [sum_map_set _ lst j (name, rd) hj (name, { rd with weight := k * rd.weight })]
          simp only [refContribution_scale]
          ring
        · rw [List.getElem?_set_ne (fun h => hcase h.symm), if_neg hcase, add_zero]
      rw [Finset.sum_congr rfl hstep, Finset.sum_add_distrib,
        Finset.sum_ite_eq' (Finset.range sim.referenceData.length) v
          (fun _ => (k - 1) * refContribution stateNames sim v name rd),
        if_pos (Finset.mem_range.mpr hvlt)]
    rw [protocolCost, protocolCost]
    rw [sum_map_set (fun rowL => (rowL.map (simCost stateNames)).sum) simulations row simRow hrow]
    rw [sum_map_set (simCost stateNames) simRow col sim hcol]
    rw [hsim']
    ring
  · intro rowY srd h1
    rw [summaryRefContribution, if_pos h1]

/-- Witness for C9: the concrete one-simulation protocol with reference
weight scaled by 3. -/
theorem cost_linear_in_reference_weight_witness :
    ([[costDemoSim]] : List (List Sim))[0]? = some [costDemoSim]
    ∧ [costDemoSim][0]? = some costDemoSim
    ∧ costDemoSim.referenceData[0]? = some [("C", costDemoRef)]
    ∧ [("C", costDemoRef)][0]? = some ("C", costDemoRef)
    ∧ ((∀ (y : ℕ → ℚ) (nPts : ℕ), 0 < costDemoRef.numPts →
          getSimulationWaveform ["C"] "C" costDemoSim 0 = some (y, nPts) → 0 < nPts →
          refContribution ["C"] costDemoSim 0 "C" costDemoRef
            = (∑ t ∈ Finset.range costDemoRef.numPts.toNat,
                (y (costDemoRef.firstPt + t) - costDemoRef.waveform t) ^ 2
                  * costDemoSim.weight (costDemoRef.firstPt + t)) * costDemoRef.weight)
      ∧ protocolCost ["C"]
          ([[costDemoSim]].set 0 ([costDemoSim].set 0
            { costDemoSim with referenceData :=
                costDemoSim.referenceData.set 0 ([("C", costDemoRef)].set 0
                  ("C", { costDemoRef with weight := 3 * costDemoRef.weight })) })) []
        = protocolCost ["C"] [[costDemoSim]] []
            + (3 - 1) * refContribution ["C"] costDemoSim 0 "C" costDemoRef
      ∧ (∀ (rowY : ℕ → ℚ) (srd : SummaryRefData), 0 < srd.numPts →
          summaryRefContribution rowY srd
            = (∑ t ∈ Finset.range srd.numPts.toNat,
                (rowY (srd.firstPt + t) - srd.waveform t) ^ 2) * srd.weight)) :=
  ⟨rfl, rfl, rfl, rfl,
   cost_linear_in_reference_weight ["C"] [[costDemoSim]] [] 0 0 0 0 [costDemoSim] costDemoSim
     [("C", costDemoRef)] "C" costDemoRef 3 rfl rfl rfl rfl⟩

end StimulusClampProtocol
